import Mathlib

/-!
# Shallow embedding of the go-lsh retrieval engine

This file embeds the canonical revision of the `go-lsh` repository
(packages `lsh`, `tables`, `forwardindex`, `results`, `configs`,
`hyperplanes`, `document`, `bitmap`) and proves or refutes the frozen
claims about it.

Modelling conventions:
* `float64` values are embedded as exact rationals `ℚ` (the claims settled
  over them are order-theoretic: comparisons, sorting, thresholds).  The
  false-negative statistics (`math.Acos`, `math.Pow`) are embedded over `ℝ`.
* `uint64` document ids and `uint16` bucket hashes are embedded as `ℕ`,
  `int64` time indexes as `ℤ`.  Go's `/` on integers truncates toward
  zero, which is exactly Lean's `Int.tdiv`.
* Go maps are embedded as association lists (`GoMap`); lookup returns the
  first binding.  Go's randomized iteration order is replaced by list
  order; every claim below is stated through lookups or order-independent
  aggregates, never through the iteration order of a map.
* The roaring bitmaps are embedded as `Finset ℕ`; `ToArray` is the sorted
  list of elements, matching roaring's ascending enumeration.
-/

set_option linter.unusedVariables false
set_option linter.unusedSectionVars false

deriving instance DecidableEq for Except

/-- Sanity check: `Int.tdiv` is Go's truncation-toward-zero division. -/
example : Int.tdiv (-7) 2 = -3 := by decide

namespace GoLsh

/-- A Go `map` embedded as an association list; lookup finds the first
    binding.  All operations below maintain at most one binding per key. -/
def GoMap (κ ν : Type) : Type := List (κ × ν)

namespace GoMap

variable {κ ν : Type} [DecidableEq κ]

/-- `m[k]` read with the comma-ok form: `none` when the key is absent. -/
def find? (m : GoMap κ ν) (k : κ) : Option ν :=
  match m with
  | [] => none
  | (k', v) :: rest => if k' = k then some v else find? rest k

/-- `m[k] = v`: replace the first binding of `k`, or append a new one. -/
def insert (m : GoMap κ ν) (k : κ) (v : ν) : GoMap κ ν :=
  match m with
  | [] => [(k, v)]
  | (k', v') :: rest =>
      if k' = k then (k', v) :: rest else (k', v') :: insert rest k v

/-- `delete(m, k)`: drop the first binding of `k`. -/
def erase (m : GoMap κ ν) (k : κ) : GoMap κ ν :=
  match m with
  | [] => []
  | (k', v') :: rest => if k' = k then rest else (k', v') :: erase rest k

/-- The values of the map in iteration (list) order. -/
def values (m : GoMap κ ν) : List ν := m.map Prod.snd

/-- The keys of the map in iteration (list) order. -/
def keys (m : GoMap κ ν) : List κ := m.map Prod.fst

/-- Rewrite every binding's value in place. -/
def mapValues (m : GoMap κ ν) (f : κ → ν → ν) : GoMap κ ν :=
  m.map (fun kv => (kv.1, f kv.1 kv.2))

/-- The bindings of the map as a plain list of pairs. -/
def entries (m : GoMap κ ν) : List (κ × ν) := m

instance [DecidableEq ν] : DecidableEq (GoMap κ ν) :=
  inferInstanceAs (DecidableEq (List (κ × ν)))

end GoMap

/-! ## Errors (`lsherrors`, `tables`, `hyperplanes`, `lsh`)

The Go errors relevant to the embedded claims, gathered into one
inductive type. -/

inductive Err where
  | invalidDocument
  | noVectorComplexity
  | noVector
  | numHyperplanesExceedHashBits
  | vectorLengthMismatch
  | documentNotStored
  | hashNotFound
  | invalidNumToReturn
  | invalidThreshold
  | invalidSignFilter
  deriving DecidableEq, Repr

/-! ## `document` package -/

/-- `document.Simple`: uid, first timestamp of the vector, and the vector. -/
structure Document where
  uid : ℕ
  index : ℤ
  vector : List ℚ
  deriving DecidableEq, Repr

/-! ## `configs` package -/

/-- `configs.LSHConfigs`.  `TFunc` is the caller-configurable transform
    applied to vectors on index and search.  The Go default
    (`NewDefaultTransformFunc`) scales the vector in place by the inverse
    of its L2 norm and returns the same slice; accordingly a transform is
    modelled as a function whose result is also what the caller's aliased
    slice holds after the call. -/
structure LSHConfigs where
  NumHyperplanes : ℕ
  NumTables : ℕ
  VectorLength : ℕ
  SamplePeriod : ℤ
  RowSize : ℤ
  TFunc : List ℚ → List ℚ

/-! ## `hyperplanes` package -/

/-- `floats.Dot`: the dot product of two equally long vectors. -/
def dot (a b : List ℚ) : ℚ := (List.zipWith (· * ·) a b).sum

/-- The loop body of `Hyperplanes.hash`: walk the planes accumulating the
    current byte `b` and counters `bitCnt`/`byteCnt`, writing each
    completed byte into `buffer`; error (`ErrVectorLengthMismatch`) on the
    first plane whose length differs from the vector's.  After the loop a
    partially filled byte is written at `byteCnt`. -/
def hashLoop (f : List ℚ) : List (List ℚ) → ℕ → ℕ → ℕ → List ℕ →
    Except Err (List ℕ)
  | [], b, bitCnt, byteCnt, buffer =>
      .ok (if bitCnt ≠ 0 then buffer.set byteCnt b else buffer)
  | p :: ps, b, bitCnt, byteCnt, buffer =>
      if f.length ≠ p.length then .error .vectorLengthMismatch
      else
        let b' := if 0 < dot p f then b ||| (1 <<< (8 - bitCnt - 1)) else b
        if bitCnt + 1 = 8 then
          hashLoop f ps 0 0 (byteCnt + 1) (buffer.set byteCnt b')
        else
          hashLoop f ps b' (bitCnt + 1) byteCnt buffer

/-- `Hyperplanes.hash planes f buffer`. -/
def hyperplanesHash (planes : List (List ℚ)) (f : List ℚ)
    (buffer : List ℕ) : Except Err (List ℕ) :=
  hashLoop f planes 0 0 0 buffer

/-- `Hyperplanes.Hash16`: hash into a 2-byte buffer and interpret it
    big-endian. -/
def Hash16 (planes : List (List ℚ)) (f : List ℚ) : Except Err ℕ :=
  if f.length = 0 then .error .noVector
  else if 16 < planes.length then .error .numHyperplanesExceedHashBits
  else
    (hyperplanesHash planes f [0, 0]).map
      (fun buf => buf.getD 0 0 * 256 + buf.getD 1 0)

/-- The byte accumulated by `hashLoop` over one group of at most eight
    planes, starting from byte `b` with `c` bits already consumed: the
    inner-loop state machine of `Hyperplanes.hash`, isolated for the bit
    characterization below. -/
def accByte (f : List ℚ) : List (List ℚ) → ℕ → ℕ → ℕ
  | [], b, _ => b
  | p :: ps, b, c =>
      accByte f ps (if 0 < dot p f then b ||| (1 <<< (8 - c - 1)) else b) (c + 1)

/-- The closed form of a successful `Hash16`: the byte of the first (up
    to) eight planes weighted `256`, plus the byte of the remaining
    planes. -/
def hash16Val (planes : List (List ℚ)) (f : List ℚ) : ℕ :=
  accByte f (planes.take 8) 0 0 * 256 + accByte f (planes.drop 8) 0 0

/-! ## `tables` package (canonical, time-sharded revision) -/

/-- A bucket's posting list (`bitmap.Bitmap`): a set of uids.  Roaring's
    `ToArray` enumerates ascending, so iteration is over `Finset.sort`. -/
abbrev Bitmap := Finset ℕ

/-- `tables.Table`: hyperplanes, the row→hash→bitmap posting lists, and
    the uid→hash→timestamps reverse index. -/
structure Table where
  planes : List (List ℚ)
  table : GoMap ℤ (GoMap ℕ Bitmap)
  doc2hash : GoMap ℕ (GoMap ℕ (List ℤ))
  deriving DecidableEq

/-- `Table.Index`. -/
def Table.Index (cfg : LSHConfigs) (t : Table) (d : Document) :
    Except Err Table :=
  match Hash16 t.planes d.vector with
  | .error e => .error e
  | .ok hash =>
      let rowIndex := Int.tdiv d.index cfg.RowSize * cfg.RowSize
      let tbl := (t.table.find? rowIndex).getD []
      let rb := (tbl.find? hash).getD ∅
      let tbl' := tbl.insert hash (insert d.uid rb)
      let hashTimestamps := (t.doc2hash.find? d.uid).getD []
      let timestamps := (hashTimestamps.find? hash).getD []
      .ok { t with
              table := t.table.insert rowIndex tbl'
              doc2hash := t.doc2hash.insert d.uid
                (hashTimestamps.insert hash (timestamps ++ [d.index])) }

/-- The inner loop of `Table.Filter`: for every uid of the bucket's
    bitmap, record the uid (creating its entry even when no timestamp
    qualifies) and add every stored timestamp of `(uid, hash)` that the
    filter `keep` accepts. -/
def filterBucket (t : Table) (hash : ℕ) (keep : ℤ → Bool) (rb : Bitmap)
    (acc : GoMap ℕ (Finset ℤ)) : GoMap ℕ (Finset ℤ) :=
  (rb.sort (· ≤ ·)).foldl
    (fun acc uid =>
      let indexMap := (acc.find? uid).getD ∅
      let tss := (((t.doc2hash.find? uid).getD []).find? hash).getD []
      acc.insert uid
        (tss.foldl (fun im index => if keep index then insert index im else im)
          indexMap))
    acc

/-- `Table.Filter` (time-sharded revision): candidates of bucket
    `hash` from the row range `[startRow, endRow]` when `maxLag > -1`,
    or from every row otherwise; per candidate the stored timestamps
    within `[d.index - maxLag, d.index + maxLag]` (all of them in the
    all-rows branch).  The hash error is discarded (`hash, _ :=`),
    leaving the zero value. -/
def Table.Filter (cfg : LSHConfigs) (t : Table) (d : Document)
    (maxLag : ℤ) : GoMap ℕ (Finset ℤ) :=
  let hash := match Hash16 t.planes d.vector with
              | .ok h => h
              | .error _ => 0
  if maxLag > -1 then
    let startIdx := d.index - maxLag
    let endIdx := d.index + maxLag
    let startRow := Int.tdiv startIdx cfg.RowSize * cfg.RowSize
    let endRow := Int.tdiv endIdx cfg.RowSize * cfg.RowSize
    let rows := Int.tdiv (endRow - startRow) cfg.RowSize + 1
    (List.range rows.toNat).foldl
      (fun acc (i : ℕ) =>
        match t.table.find? (startRow + (i : ℤ) * cfg.RowSize) with
        | none => acc
        | some tblRow =>
            match tblRow.find? hash with
            | none => acc
            | some rb =>
                filterBucket t hash
                  (fun index => startIdx ≤ index ∧ index ≤ endIdx) rb acc)
      []
  else
    t.table.foldl
      (fun acc rowEntry =>
        match rowEntry.2.find? hash with
        | none => acc
        | some rb => filterBucket t hash (fun _ => true) rb acc)
      []

/-- The structural invariant every reachable table satisfies (established
    by `Table.Index` building the bucket maps and the reverse index in
    lock step): map keys are unique at each level, and every uid present
    in a bucket `(row, h)` has a reverse-index entry mentioning `h`. -/
def TableWF (t : Table) : Prop :=
  (∀ e ∈ t.table.entries, e.2.keys.Nodup ∧
    ∀ b ∈ e.2.entries, ∀ u ∈ b.2,
      ((t.doc2hash.find? u).bind (fun hm => hm.find? b.1)).isSome = true) ∧
  t.doc2hash.keys.Nodup

/-- The effect of `Table.Delete`'s inner loop on one row: for every hash
    the uid was indexed under, remove the uid from that bucket and drop
    the bucket when it empties. -/
def deleteHashes (hashes : GoMap ℕ (List ℤ)) (uid : ℕ)
    (tbl : GoMap ℕ Bitmap) : GoMap ℕ Bitmap :=
  hashes.keys.foldl
    (fun tbl hash =>
      match tbl.find? hash with
      | none => tbl
      | some rb =>
          let rb' := rb.erase uid
          if rb' = ∅ then tbl.erase hash else tbl.insert hash rb')
    tbl

/-- `Table.Delete`: returns the error (`none` = success) and the table
    after the call.  The error ends up `nil` exactly when some
    (row, hash) pair of the reverse index hits an existing bucket. -/
def Table.Delete (t : Table) (uid : ℕ) : Option Err × Table :=
  match t.doc2hash.find? uid with
  | none => (some .documentNotStored, t)
  | some hashes =>
      let hit := t.table.any
        (fun rowEntry => hashes.keys.any
          (fun hash => (rowEntry.2.find? hash).isSome))
      (if hit then none else some .hashNotFound,
       { t with
           table := t.table.mapValues (fun _ tbl => deleteHashes hashes uid tbl)
           doc2hash := t.doc2hash.erase uid })

/-! ## `forwardindex` package -/

/-- The extension loop of `InMemory.Index`: each incoming sample `i` is
    placed at stored position `i + offset`, overwriting when the position
    exists and otherwise growing the stored vector with zero padding up to
    the position before appending. -/
def extendVec (offset : ℕ) : List ℚ → ℕ → List ℚ → List ℚ
  | cdVec, _, [] => cdVec
  | cdVec, i, x :: rest =>
      let idx := i + offset
      if idx < cdVec.length then extendVec offset (cdVec.set idx x) (i + 1) rest
      else
        extendVec offset
          (cdVec ++ List.replicate (idx - cdVec.length) 0 ++ [x]) (i + 1) rest

/-- `forwardindex.InMemory`: the uid → document forward map. -/
structure InMemory where
  docs : GoMap ℕ Document
  deriving DecidableEq

/-- `InMemory.Index`: store a new document, or extend the stored entry of
    the uid.  The offset is computed as
    `d.index/SamplePeriod - stored.index/SamplePeriod` (Go truncated
    division); a non-positive offset means the incoming samples are
    dropped ("not handling docs that are in the past").  The stored
    `time_index` never changes on the extension path. -/
def InMemory.Index (cfg : LSHConfigs) (m : InMemory) (d : Document) :
    InMemory :=
  match m.docs.find? d.uid with
  | some currDoc =>
      let dIdx := Int.tdiv d.index cfg.SamplePeriod
      let cdIdx := Int.tdiv currDoc.index cfg.SamplePeriod
      let offset := dIdx - cdIdx
      let cdVec :=
        if 0 < offset then extendVec offset.toNat currDoc.vector 0 d.vector
        else currDoc.vector
      ⟨m.docs.insert d.uid ⟨currDoc.uid, currDoc.index, cdVec⟩⟩
  | none => ⟨m.docs.insert d.uid d⟩

/-- The three possible outcomes of `InMemory.GetVector`: Go returns `nil`
    for an unknown uid, panics when the computed slice bounds are invalid
    (negative start, or start past the stored vector), and otherwise
    returns a `VectorLength`-sized buffer. -/
inductive GetVecResult where
  | panic
  | notFound
  | ok (v : List ℚ)
  deriving DecidableEq, Repr

/-- `InMemory.GetVector uid idx`: copy `VectorLength` samples starting at
    offset `(idx - stored.index)/SamplePeriod`, zero-filled past the end
    of the stored vector.  The Go slice `vec[startOffset:endOffset]`
    panics unless `0 ≤ startOffset ≤ endOffset`. -/
def InMemory.GetVector (cfg : LSHConfigs) (m : InMemory) (uid : ℕ)
    (idx : ℤ) : GetVecResult :=
  match m.docs.find? uid with
  | none => .notFound
  | some doc =>
      let vec := doc.vector
      let startOffset := Int.tdiv (idx - doc.index) cfg.SamplePeriod
      let endOffset0 := startOffset + (cfg.VectorLength : ℤ)
      let endOffset :=
        if endOffset0 > (vec.length : ℤ) then (vec.length : ℤ) else endOffset0
      if 0 ≤ startOffset ∧ startOffset ≤ endOffset then
        let slice := (vec.drop startOffset.toNat).take
          (endOffset - startOffset).toNat
        .ok (slice ++ List.replicate (cfg.VectorLength - slice.length) 0)
      else .panic

/-- `InMemory.Delete`. -/
def InMemory.Delete (m : InMemory) (uid : ℕ) : InMemory :=
  ⟨m.docs.erase uid⟩

/-- `InMemory.Size`. -/
def InMemory.Size (m : InMemory) : ℕ := m.docs.length

/-! ## `results` package, with Go's `container/heap` -/

/-- `results.Score`. -/
structure Score where
  uid : ℕ
  index : ℤ
  score : ℚ
  deriving DecidableEq, Repr

instance : Inhabited Score := ⟨⟨0, 0, 0⟩⟩

/-- `options.SignFilter`: `POS = 1`, `NEG = -1`, `ANY = 0`. -/
abbrev SignFilter := ℤ

/-- `Scores.Less i j`: order first by absolute score, then by time index,
    then by uid — the `sort.Interface` the heap and `Fetch` use. -/
def Score.lessB (a b : Score) : Bool :=
  if |a.score| < |b.score| then true
  else if |a.score| > |b.score| then false
  else if a.index < b.index then true
  else if a.index > b.index then false
  else if a.uid < b.uid then true
  else false

/-- The sort key realizing `Scores.Less` as a lexicographic comparison:
    `Scores.Less a b = (key a < key b)`. -/
def Score.key (a : Score) : ℚ ×ₗ (ℤ ×ₗ ℕ) :=
  toLex (|a.score|, toLex (a.index, a.uid))

/-- `Swap` of `sort.Interface` on a list. -/
def lswap (l : List Score) (i j : ℕ) : List Score :=
  let a := l.getD i default
  let b := l.getD j default
  (l.set i b).set j a

/-- `container/heap`'s `up`: sift position `j` toward its parent
    `(j-1)/2` while it is strictly smaller. -/
def heapUp (l : List Score) (j : ℕ) : List Score :=
  if h : (j - 1) / 2 = j ∨
      ¬ Score.lessB (l.getD j default) (l.getD ((j - 1) / 2) default) then l
  else heapUp (lswap l ((j - 1) / 2) j) ((j - 1) / 2)
termination_by j
decreasing_by
  rw [not_or] at h
  omega

/-- The min-child selection of `container/heap`'s `down`: the right child
    when it exists and is strictly smaller, else the left child. -/
def downChild (l : List Score) (i n : ℕ) : ℕ :=
  if 2 * i + 2 < n ∧
      Score.lessB (l.getD (2 * i + 2) default) (l.getD (2 * i + 1) default)
  then 2 * i + 2 else 2 * i + 1

/-- `container/heap`'s `down`: sift position `i` down within the first
    `n` positions. -/
def heapDown (l : List Score) (i n : ℕ) : List Score :=
  if h : n ≤ 2 * i + 1 ∨
      ¬ Score.lessB (l.getD (downChild l i n) default) (l.getD i default)
  then l
  else heapDown (lswap l i (downChild l i n)) (downChild l i n) n
termination_by n - i
decreasing_by
  rw [not_or] at h
  unfold downChild
  split <;> omega

/-- `heap.Push`: append, then sift up. -/
def heapPush (l : List Score) (x : Score) : List Score :=
  heapUp (l ++ [x]) l.length

/-- `heap.Pop`: swap the root with the last element, sift the root down
    within the shortened prefix, then remove and return the last
    element. -/
def heapPop (l : List Score) : Score × List Score :=
  let n := l.length - 1
  let l' := heapDown (lswap l 0 n) 0 n
  (l'.getD n default, l'.dropLast)

/-- `results.Results`. -/
structure Results where
  TopN : ℕ
  Threshold : ℚ
  SignFilter : ℤ
  scores : List Score
  NumScored : ℕ
  deriving DecidableEq

/-- `results.New` (`heap.Init` on the empty slice is a no-op). -/
def Results.New (topN : ℕ) (threshold : ℚ) (signFilter : ℤ) :
    Results :=
  ⟨topN, threshold, signFilter, [], 0⟩

/-- `Results.passed`: threshold on the absolute score and the sign
    filter. -/
def Results.passed (r : Results) (s : Score) : Bool :=
  |s.score| ≥ r.Threshold ∧
    (r.SignFilter = 0 ∨ (s.score > 0 ∧ r.SignFilter = 1) ∨
      (s.score < 0 ∧ r.SignFilter = -1))

/-- `Results.Update`: count the score; drop it unless it passes; push
    while below `TopN`, else replace the heap minimum when strictly
    better. -/
def Results.Update (r : Results) (s : Score) : Results :=
  let r := { r with NumScored := r.NumScored + 1 }
  if ¬ r.passed s then r
  else if r.scores.length = r.TopN then
    if |s.score| > |(r.scores.getD 0 default).score| then
      { r with scores := heapPush (heapPop r.scores).2 s }
    else r
  else { r with scores := heapPush r.scores s }

/-- The drain loop of `Results.Fetch`: `k` successive pops. -/
def drainHeap : List Score → ℕ → List Score
  | _, 0 => []
  | l, k + 1 =>
      let p := heapPop l
      p.1 :: drainHeap p.2 k

/-- `Results.Fetch`: pop everything; the pops fill the output back to
    front. -/
def Results.Fetch (r : Results) : List Score :=
  (drainHeap r.scores r.scores.length).reverse

/-- The parent/child edge relation of the implicit binary heap. -/
def heapEdge (i j : ℕ) : Prop := j = 2 * i + 1 ∨ j = 2 * i + 2

/-- The `container/heap` invariant: no child is `Less` than its
    parent. -/
def IsHeap (l : List Score) : Prop :=
  ∀ i j, heapEdge i j → j < l.length →
    Score.key (l.getD i default) ≤ Score.key (l.getD j default)

/-- The heap invariant restricted to the first `n` positions (the live
    prefix during `Pop`). -/
def IsHeapN (l : List Score) (n : ℕ) : Prop :=
  ∀ i j, heapEdge i j → j < n →
    Score.key (l.getD i default) ≤ Score.key (l.getD j default)

/-- The search-result collector invariant: never more than `TopN` scores,
    and only scores that passed the threshold and sign filter. -/
def ResInv (r : Results) : Prop :=
  r.scores.length ≤ r.TopN ∧ ∀ sc ∈ r.scores, r.passed sc = true

/-! ## `options` package

Source: the `package options` segment of `src/bitmap.go` (the snapshot
concatenates it after the `Bitmap` wrapper; `src/unnamed/part_003` is
its test).  `AllLags = -1`, `SignFilter_POS = 1`, `SignFilter_NEG = -1`,
`SignFilter_ANY = 0`. -/

/-- `options.Search` (src/bitmap.go, `package options` segment). -/
structure SearchOpts where
  NumToReturn : ℕ
  Threshold : ℚ
  SignFilter : ℤ
  MaxLag : ℤ
  deriving DecidableEq

/-- `options.(*Search).Validate` (src/bitmap.go, `package options`
    segment): `s.NumToReturn < 1` is `ErrInvalidNumToReturn`;
    `s.Threshold < 0 || s.Threshold > 1` is `ErrInvalidThreshold`; a
    `SignFilter` outside the `switch` cases `ANY = 0`, `NEG = -1`,
    `POS = 1` is `ErrInvalidSignFilter`; and `MaxLag` below
    `AllLags = -1` is raised to `-1`.  Go assigns the normalized
    `MaxLag` through the pointer receiver; per this file's convention
    the updated options are returned as the `.ok` value instead. -/
def SearchOpts.Validate (s : SearchOpts) : Except Err SearchOpts :=
  if s.NumToReturn < 1 then .error .invalidNumToReturn
  else if s.Threshold < 0 ∨ 1 < s.Threshold then .error .invalidThreshold
  else if ¬ (s.SignFilter = 0 ∨ s.SignFilter = -1 ∨ s.SignFilter = 1) then
    .error .invalidSignFilter
  else .ok { s with MaxLag := if s.MaxLag < -1 then -1 else s.MaxLag }

/-! ## `lsh` package: the engine -/

/-- `stat.Mean` of gonum over exact rationals. -/
def gonumMean (v : List ℚ) : ℚ := v.sum / v.length

/-- `stat.Variance` of gonum: the unbiased sample variance
    `Σ (x - mean)² / (n - 1)`; gonum returns NaN when `n < 2` (division
    by zero), modelled as `none`. -/
def gonumVariance (v : List ℚ) : Option ℚ :=
  if v.length < 2 then none
  else some ((v.map (fun x => (x - gonumMean v) ^ 2)).sum / (v.length - 1))

/-- The engine's complexity check `stat.StdDev(vec, nil) == 0`.
    `StdDev` is `sqrt (Variance)`; a square root of a non-negative
    rational is zero exactly when the radicand is, and gonum's NaN
    (`n < 2`) compares unequal to `0`, so the Go comparison holds iff the
    sample variance is exactly `0`. -/
def stdDevIsZero (v : List ℚ) : Bool := gonumVariance v = some 0

/-- `lsh.LSH`: configuration, the per-hyperplane-set tables, and the
    forward index. -/
structure LSH where
  Cfg : LSHConfigs
  Tables : List Table
  Docs : InMemory

/-- The table loop of `lsh.(*LSH).index`: tables are updated one at a
    time and the first error stops the loop, leaving the earlier tables
    updated (no rollback). -/
def indexTables (cfg : LSHConfigs) (d : Document) :
    List Table → Option Err × List Table
  | [] => (none, [])
  | t :: ts =>
      match t.Index cfg d with
      | .error e => (some e, t :: ts)
      | .ok t' =>
          let r := indexTables cfg d ts
          (r.1, t' :: r.2)

/-- `lsh.(*LSH).Index`.  The caller's document is copied first for the
    forward index; the transform is then applied to the caller's vector
    in place, so the returned `Document` is what the caller's document
    aliases after the call. -/
def LSH.Index (l : LSH) (d : Document) : Option Err × LSH × Document :=
  let origDoc := d
  if d.vector.length ≠ l.Cfg.VectorLength then
    (some .invalidDocument, l, d)
  else if stdDevIsZero d.vector then
    (some .noVectorComplexity, l, d)
  else
    let d' := { d with vector := l.Cfg.TFunc d.vector }
    let r := indexTables l.Cfg d' l.Tables
    match r.1 with
    | some e => (some e, { l with Tables := r.2 }, d')
    | none =>
        (none,
         { l with Tables := r.2, Docs := l.Docs.Index l.Cfg origDoc }, d')

/-- `lsh.(*LSH).Delete`: delete from every table keeping the last
    non-nil error, then drop the forward entry. -/
def LSH.Delete (l : LSH) (uid : ℕ) : Option Err × LSH :=
  let r := l.Tables.foldl
    (fun acc t =>
      let td := t.Delete uid
      (match td.1 with
       | some e => some e
       | none => acc.1,
       acc.2 ++ [td.2]))
    ((none : Option Err), [])
  (r.1, { l with Tables := r.2, Docs := l.Docs.Delete uid })

/-- The merge of `filterDocsByLag` / `filterDocs`: fold one table's
    filter result into the merged uid → positions map. -/
def mergeDocIds (acc : GoMap ℕ (Finset ℤ)) (dids : GoMap ℕ (Finset ℤ)) :
    GoMap ℕ (Finset ℤ) :=
  dids.foldl
    (fun acc entry =>
      acc.insert entry.1 ((acc.find? entry.1).getD ∅ ∪ entry.2))
    acc

/-- `lsh.(*LSH).filterDocsByLag`: union of all tables' filters. -/
def LSH.filterDocsByLag (l : LSH) (d : Document) (maxLag : ℤ) :
    GoMap ℕ (Finset ℤ) :=
  l.Tables.foldl (fun acc t => mergeDocIds acc (t.Filter l.Cfg d maxLag)) []

/-- `lsh.(*LSH).filterDocs`: positively correlated candidates for ANY or
    POS, and candidates of the negated query for ANY or NEG (the
    in-place negation of the query is undone afterwards). -/
def LSH.filterDocs (l : LSH) (d : Document) (s : SearchOpts) :
    Except Err (GoMap ℕ (Finset ℤ)) :=
  if d.vector.length ≠ l.Cfg.VectorLength then .error .invalidDocument
  else
    match s.Validate with
    | .error e => .error e
    | .ok s =>
        let pos :=
          if s.SignFilter = 0 ∨ s.SignFilter = 1 then
            mergeDocIds [] (l.filterDocsByLag d s.MaxLag)
          else []
        let dNeg := { d with vector := d.vector.map (fun x => -x) }
        .ok
          (if s.SignFilter = 0 ∨ s.SignFilter = -1 then
            mergeDocIds pos (l.filterDocsByLag dNeg s.MaxLag)
          else pos)

/-- The per-candidate loop of `lsh.(*LSH).score`, parametric in the
    embedding of `stat.Correlation` (`corr`): fetch each candidate
    position's slice, skip unknown uids, transform the fetched copy, and
    offer the correlation against the (transformed) query to the result
    collector.  A `GetVector` panic aborts the whole search (`none`). -/
def scoreDocs (corr : List ℚ → List ℚ → ℚ) (l : LSH) (qvec : List ℚ)
    (docIds : GoMap ℕ (Finset ℤ)) (res : Results) : Option Results :=
  docIds.foldl
    (fun acc entry =>
      match acc with
      | none => none
      | some res =>
          (entry.2.sort (· ≤ ·)).foldl
            (fun acc index =>
              match acc with
              | none => none
              | some res =>
                  match l.Docs.GetVector l.Cfg entry.1 index with
                  | .panic => none
                  | .notFound => some res
                  | .ok v =>
                      some (res.Update
                        ⟨entry.1, index, corr qvec (l.Cfg.TFunc v)⟩))
            (some res))
    (some res)

/-- `lsh.(*LSH).Search`, parametric in the embedding of
    `stat.Correlation`.  Returns the outcome (`none` models the panic
    from a bad forward-index slice) together with the caller's document
    after the call — the query vector is transformed in place before the
    options are even validated. -/
def LSH.Search (corr : List ℚ → List ℚ → ℚ) (l : LSH) (d : Document)
    (s : SearchOpts) :
    Except Err (Option (List Score × ℕ)) × Document :=
  if d.vector.length ≠ l.Cfg.VectorLength then
    (.error .invalidDocument, d)
  else
    let d' := { d with vector := l.Cfg.TFunc d.vector }
    match s.Validate with
    | .error e => (.error e, d')
    | .ok _ =>
        match l.filterDocs d' s with
        | .error e => (.error e, d')
        | .ok docIds =>
            let res := Results.New s.NumToReturn s.Threshold s.SignFilter
            match scoreDocs corr l d'.vector docIds res with
            | none => (.ok none, d')
            | some res => (.ok (some (res.Fetch, res.NumScored)), d')

/-! ## `stats` package and `lsh.(*LSH).Stats` -/

/-- `stats.FalseNegativeError`. -/
structure FalseNegativeError where
  Threshold : ℝ
  Probability : ℝ

/-- `stats.Statistics`. -/
structure Statistics where
  NumDocs : ℕ
  FalseNegativeErrors : List FalseNegativeError

/-- The threshold loop `for theta := 0.60; theta < 1.0; theta += 0.05`
    of `LSH.Stats`, collected over exact rationals. -/
def collectThetas (θ : ℚ) : List ℚ :=
  if h : θ < 1 then θ :: collectThetas (θ + 1 / 20) else []
termination_by (⌈(1 - θ) * 20⌉).toNat
decreasing_by
  have h1 : (⌈(1 - (θ + 1 / 20)) * 20⌉ : ℤ) = ⌈(1 - θ) * 20⌉ - 1 := by
    rw [show (1 - (θ + 1 / 20)) * 20 = (1 - θ) * 20 + (-1 : ℚ) by ring]
    rw [show ((-1 : ℚ) : ℚ) = ((-1 : ℤ) : ℚ) by norm_num, Int.ceil_add_int]
    omega
  have h2 : (0 : ℤ) < ⌈(1 - θ) * 20⌉ := by
    apply Int.ceil_pos.mpr
    nlinarith
  omega

/-- `lsh.(*LSH).Stats`: the document count and, for each threshold the
    loop visits, the false-negative probability
    `(1 − (1 − (2/π)·acos θ)^NumHyperplanes)^NumTables`. -/
noncomputable def LSH.Stats (l : LSH) : Statistics :=
  { NumDocs := l.Docs.Size
    FalseNegativeErrors :=
      (collectThetas (3 / 5)).map
        (fun θ : ℚ =>
          { Threshold := (θ : ℝ)
            Probability :=
              (1 - (1 - 2 / Real.pi * Real.arccos (θ : ℝ)) ^
                  l.Cfg.NumHyperplanes) ^ l.Cfg.NumTables }) }

/-! ## Concrete engine state used by the search witness -/

/-- A tableless engine: every search returns an empty result list. -/
def cfg5 : LSHConfigs :=
  { NumHyperplanes := 1, NumTables := 1, VectorLength := 1,
    SamplePeriod := 60, RowSize := 60, TFunc := id }

def lsh5 : LSH := ⟨cfg5, [], ⟨[]⟩⟩

def corr5 : List ℚ → List ℚ → ℚ := fun _ _ => 0

def opts5 : SearchOpts := ⟨2, 0, 0, 0⟩

def d5 : Document := ⟨1, 0, [1]⟩

/-! ## Concrete engine state used by the deletion witness -/

/-- A one-table engine with uid 7 indexed under row 0, hash 5. -/
def cfg8 : LSHConfigs :=
  { NumHyperplanes := 1, NumTables := 1, VectorLength := 2,
    SamplePeriod := 60, RowSize := 60, TFunc := id }

def table8 : Table :=
  { planes := [[1, 0]]
    table := [((0 : ℤ), ([(5, ({7} : Finset ℕ))] : GoMap ℕ Bitmap))]
    doc2hash :=
      [((7 : ℕ), ([(5, ([(0 : ℤ)] : List ℤ))] : GoMap ℕ (List ℤ)))] }

def lsh8 : LSH :=
  { Cfg := cfg8, Tables := [table8],
    Docs := ⟨[(7, ⟨7, 0, [1, 2]⟩)]⟩ }

end GoLsh


namespace GoLsh

/-! # Theorems

First the `GoMap` library lemmas, then the per-claim developments. -/

namespace GoMap

variable {κ ν : Type} [DecidableEq κ]

theorem find?_insert_self (m : GoMap κ ν) (k : κ) (v : ν) :
    (m.insert k v).find? k = some v := by
  induction m with
  | nil => simp [insert, find?]
  | cons kv rest ih =>
      by_cases h : kv.1 = k <;> simp [insert, find?, h, ih]

theorem find?_insert_ne (m : GoMap κ ν) (k k' : κ) (v : ν) (h : k ≠ k') :
    (m.insert k v).find? k' = m.find? k' := by
  induction m with
  | nil => simp [insert, find?, h]
  | cons kv rest ih =>
      by_cases hk : kv.1 = k
      · subst hk
        simp [insert, find?, h]
      · simp [insert, find?, hk, ih]

theorem keys_cons (kv : κ × ν) (m : GoMap κ ν) :
    GoMap.keys (kv :: m) = kv.1 :: m.keys := rfl

theorem find?_eq_none_of_not_mem_keys {m : GoMap κ ν} {k : κ}
    (h : k ∉ m.keys) : m.find? k = none := by
  induction m with
  | nil => rfl
  | cons kv rest ih =>
      rw [keys_cons, List.mem_cons, not_or] at h
      have hne : kv.1 ≠ k := fun he => h.1 he.symm
      simp only [find?, if_neg hne]
      exact ih h.2

theorem find?_erase_self {m : GoMap κ ν}
    (hm : (m.keys).Nodup) (k : κ) : (m.erase k).find? k = none := by
  induction m with
  | nil => rfl
  | cons kv rest ih =>
      simp only [keys, List.map_cons, List.nodup_cons] at hm
      by_cases h : kv.1 = k
      · subst h
        simp only [erase, if_pos rfl]
        exact find?_eq_none_of_not_mem_keys hm.1
      · simp only [erase, if_neg h, find?, if_neg h]
        exact ih hm.2

theorem keys_insert (m : GoMap κ ν) (k : κ) (v : ν) (h : k ∈ m.keys) :
    (m.insert k v).keys = m.keys := by
  induction m with
  | nil => simp [keys] at h
  | cons kv rest ih =>
      by_cases hk : kv.1 = k
      · simp [insert, hk, keys]
      · rw [keys_cons, List.mem_cons] at h
        rcases h with h | h
        · exact absurd h.symm hk
        · simp only [insert, if_neg hk, keys_cons, ih h]

theorem keys_insert_not_mem (m : GoMap κ ν) (k : κ) (v : ν) (h : k ∉ m.keys) :
    (m.insert k v).keys = m.keys ++ [k] := by
  induction m with
  | nil => simp [insert, keys]
  | cons kv rest ih =>
      rw [keys_cons, List.mem_cons, not_or] at h
      have hne : kv.1 ≠ k := fun he => h.1 he.symm
      simp only [insert, if_neg hne, keys_cons, ih h.2, List.cons_append]

theorem nodup_keys_insert (m : GoMap κ ν) (k : κ) (v : ν)
    (hm : m.keys.Nodup) : (m.insert k v).keys.Nodup := by
  by_cases h : k ∈ m.keys
  · rw [keys_insert m k v h]; exact hm
  · rw [keys_insert_not_mem m k v h]
    simpa using List.Nodup.append hm (by simp) (by simpa using fun hk => h hk)

theorem keys_erase_sublist (m : GoMap κ ν) (k : κ) :
    (m.erase k).keys.Sublist m.keys := by
  induction m with
  | nil => simp [erase, keys]
  | cons kv rest ih =>
      by_cases h : kv.1 = k
      · simp only [erase, if_pos h, keys, List.map_cons]
        exact (List.sublist_cons_self _ _)
      · simp only [erase, if_neg h, keys, List.map_cons]
        exact ih.cons₂ _

theorem nodup_keys_erase (m : GoMap κ ν) (k : κ)
    (hm : m.keys.Nodup) : (m.erase k).keys.Nodup :=
  (keys_erase_sublist m k).nodup hm

theorem find?_erase_ne (m : GoMap κ ν) (k k' : κ) (h : k ≠ k') :
    (m.erase k).find? k' = m.find? k' := by
  induction m with
  | nil => rfl
  | cons kv rest ih =>
      simp only [erase]
      by_cases hk : kv.1 = k
      · rw [if_pos hk]
        have hne : kv.1 ≠ k' := fun he => h (by rw [← hk, he])
        simp only [find?, if_neg hne]
      · rw [if_neg hk]
        simp only [find?]
        by_cases hk' : kv.1 = k'
        · rw [if_pos hk', if_pos hk']
        · rw [if_neg hk', if_neg hk', ih]

theorem erase_of_find?_eq_none (m : GoMap κ ν) (k : κ)
    (h : m.find? k = none) : m.erase k = m := by
  induction m with
  | nil => rfl
  | cons kv rest ih =>
      rw [find?] at h
      by_cases hk : kv.1 = k
      · rw [if_pos hk] at h
        exact Option.noConfusion h
      · rw [if_neg hk] at h
        rw [erase, if_neg hk, ih h]

theorem find?_mapValues (m : GoMap κ ν) (f : κ → ν → ν) (k : κ) :
    (m.mapValues f).find? k = (m.find? k).map (f k) := by
  induction m with
  | nil => rfl
  | cons kv rest ih =>
      by_cases hk : kv.1 = k
      · subst hk
        simp [mapValues, find?]
      · simp only [mapValues, List.map_cons, find?, if_neg hk]
        exact ih

theorem mem_keys_of_find?_isSome {m : GoMap κ ν} {k : κ}
    (h : (m.find? k).isSome) : k ∈ m.keys := by
  induction m with
  | nil => simp [find?] at h
  | cons kv rest ih =>
      rw [find?] at h
      by_cases hk : kv.1 = k
      · rw [keys_cons, hk]
        exact List.mem_cons_self _ _
      · rw [if_neg hk] at h
        rw [keys_cons]
        exact List.mem_cons_of_mem _ (ih h)

theorem all_find? {m : GoMap κ ν} {p : κ × ν → Bool}
    (hall : List.all m p = true) {k : κ} {v : ν}
    (h : m.find? k = some v) : p (k, v) = true := by
  induction m with
  | nil => exact Option.noConfusion h
  | cons kv rest ih =>
      rw [List.all_cons, Bool.and_eq_true] at hall
      rw [find?] at h
      by_cases hk : kv.1 = k
      · rw [if_pos hk] at h
        have : (k, v) = kv := by
          rw [← hk, ← (Option.some.injEq _ _).mp h]
        rw [this]
        exact hall.1
      · rw [if_neg hk] at h
        exact ih hall.2 h

end GoMap

/-! ## C6: the `Hash16` bit contract -/

theorem accByte_lt (f : List ℚ) (ps : List (List ℚ)) (b c : ℕ)
    (hb : b < 256) : accByte f ps b c < 256 := by
  induction ps generalizing b c with
  | nil => exact hb
  | cons p ps ih =>
      apply ih
      split
      · have h1 : (1 <<< (8 - c - 1)) < 256 := by
          rw [Nat.shiftLeft_eq, one_mul]
          calc (2:ℕ) ^ (8 - c - 1) ≤ 2 ^ 7 := Nat.pow_le_pow_right (by norm_num) (by omega)
            _ < 256 := by norm_num
        exact Nat.or_lt_two_pow (n := 8) hb h1
      · exact hb

theorem accByte_testBit (f : List ℚ) (ps : List (List ℚ)) (b c i : ℕ)
    (hc : c + ps.length ≤ 8) :
    (accByte f ps b c).testBit i = true ↔
      b.testBit i = true ∨
        ∃ t, t < ps.length ∧ i + (c + t) = 7 ∧ 0 < dot (ps.getD t []) f := by
  induction ps generalizing b c with
  | nil =>
      simp [accByte]
  | cons p ps ih =>
      simp only [accByte]
      rw [ih _ _ (by simp at hc ⊢; omega)]
      have hc7 : c ≤ 7 := by simp at hc; omega
      constructor
      · rintro (hb | ⟨t, ht, hti, htd⟩)
        · by_cases hd : 0 < dot p f
          · rw [if_pos hd, Nat.testBit_or, Nat.shiftLeft_eq, one_mul,
              Nat.testBit_two_pow] at hb
            rcases Bool.or_eq_true_iff.mp hb with hb | hb
            · exact Or.inl hb
            · refine Or.inr ⟨0, by simp, ?_, by simpa using hd⟩
              have : 8 - c - 1 = i := by simpa using hb
              omega
          · rw [if_neg hd] at hb
            exact Or.inl hb
        · exact Or.inr ⟨t + 1, by simpa using ht, by omega, by simpa using htd⟩
      · rintro (hb | ⟨t, ht, hti, htd⟩)
        · left
          split
          · rw [Nat.testBit_or, hb, Bool.true_or]
          · exact hb
        · match t with
          | 0 =>
              left
              have hi : i = 7 - c := by omega
              rw [if_pos (by simpa using htd), Nat.testBit_or, Nat.shiftLeft_eq,
                one_mul, Nat.testBit_two_pow]
              have : 8 - c - 1 = i := by omega
              simp [this]
          | t + 1 =>
              right
              exact ⟨t, by simpa using ht, by omega, by simpa using htd⟩

theorem hashLoop_single (f : List ℚ) (ps : List (List ℚ)) (b c byteCnt : ℕ)
    (buffer : List ℕ) (hlen : ∀ p ∈ ps, f.length = p.length)
    (hfit : c + ps.length ≤ 8) (hne : ¬(c = 0 ∧ ps = [])) :
    hashLoop f ps b c byteCnt buffer =
      .ok (buffer.set byteCnt (accByte f ps b c)) := by
  induction ps generalizing b c with
  | nil =>
      have hc : c ≠ 0 := fun h => hne ⟨h, rfl⟩
      simp [hashLoop, accByte, hc]
  | cons p ps ih =>
      have hl : ¬ (f.length ≠ p.length) := by
        simpa using hlen p (by simp)
      simp only [hashLoop, if_neg hl]
      by_cases h8 : c + 1 = 8
      · have hps : ps = [] := by
          have := hfit
          simp at this
          have : ps.length = 0 := by omega
          exact List.length_eq_zero.mp this
        subst hps
        rw [if_pos h8]
        simp [hashLoop, accByte, Except.map]
      · rw [if_neg h8]
        rw [ih _ _ (fun q hq => hlen q (by simp [hq])) (by simp at hfit ⊢; omega)
          (by rintro ⟨h, _⟩; omega)]
        rfl

theorem hashLoop_split (f : List ℚ) (ps₁ ps₂ : List (List ℚ)) (b c byteCnt : ℕ)
    (buffer : List ℕ) (hlen : ∀ p ∈ ps₁, f.length = p.length)
    (hexact : c + ps₁.length = 8) (hc : c < 8) :
    hashLoop f (ps₁ ++ ps₂) b c byteCnt buffer =
      hashLoop f ps₂ 0 0 (byteCnt + 1) (buffer.set byteCnt (accByte f ps₁ b c)) := by
  induction ps₁ generalizing b c with
  | nil => simp at hexact; omega
  | cons p ps₁ ih =>
      have hl : ¬ (f.length ≠ p.length) := by
        simpa using hlen p (by simp)
      simp only [List.cons_append, hashLoop, if_neg hl]
      by_cases h8 : c + 1 = 8
      · have hps : ps₁ = [] := by
          simp at hexact
          have : ps₁.length = 0 := by omega
          exact List.length_eq_zero.mp this
        subst hps
        rw [if_pos h8]
        simp [accByte]
      · rw [if_neg h8]
        simp only [List.append_eq]
        rw [ih _ _ (fun q hq => hlen q (by simp [hq]))
          (by simp at hexact ⊢; omega) (by omega)]
        rfl


theorem Hash16_ok (planes : List (List ℚ)) (f : List ℚ)
    (hv : f.length ≠ 0) (hN : planes.length ≤ 16)
    (hlen : ∀ p ∈ planes, f.length = p.length) :
    Hash16 planes f = .ok (hash16Val planes f) := by
  unfold Hash16 hyperplanesHash hash16Val
  rw [if_neg hv, if_neg (by omega)]
  by_cases h8 : planes.length ≤ 8
  · rw [List.take_of_length_le h8, List.drop_eq_nil_of_le h8]
    rcases List.eq_nil_or_concat planes with hnil | _
    · subst hnil
      simp [hashLoop, accByte, Except.map]
    · have hne : planes ≠ [] := by
        rintro rfl
        simp_all
      rw [hashLoop_single f planes 0 0 0 [0, 0] hlen (by omega)
        (by rintro ⟨_, h⟩; exact hne h)]
      simp [accByte, Except.map]
  · conv_lhs => rw [← List.take_append_drop 8 planes]
    rw [hashLoop_split f _ _ 0 0 0 [0, 0]
      (fun q hq => hlen q (List.mem_of_mem_take hq))
      (by simp; omega) (by omega)]
    rw [hashLoop_single f _ 0 0 1 _
      (fun q hq => hlen q (List.mem_of_mem_drop hq))
      (by simp; omega)
      (by
        rintro ⟨_, h⟩
        have := congrArg List.length h
        simp at this
        omega)]
    simp [Except.map, List.set]


theorem testBit_byte_combo (a c i : ℕ) (hc : c < 256) :
    (a * 256 + c).testBit i =
      if i < 8 then c.testBit i else a.testBit (i - 8) := by
  rcases lt_or_ge i 8 with hi | hi
  · rw [if_pos hi, Nat.testBit_to_div_mod, Nat.testBit_to_div_mod]
    have he : a * 256 = 2 ^ i * (a * 2 ^ (8 - i)) := by
      rw [Nat.mul_comm (2 ^ i), mul_assoc, ← pow_add, show 8 - i + i = 8 by omega]
      norm_num
    have hd : (a * 256 + c) / 2 ^ i = a * 2 ^ (8 - i) + c / 2 ^ i := by
      rw [he, Nat.mul_add_div (Nat.pos_pow_of_pos i (by norm_num))]
    rw [hd]
    have hpow : 2 ^ (8 - i) % 2 = 0 := by
      rw [Nat.pow_mod]
      simp [Nat.zero_pow (show 0 < 8 - i by omega)]
    have hz : a * 2 ^ (8 - i) % 2 = 0 := by
      rw [Nat.mul_mod, hpow, mul_zero]
      simp
    have h2 : (a * 2 ^ (8 - i) + c / 2 ^ i) % 2 = c / 2 ^ i % 2 := by omega
    rw [h2]
  · rw [if_neg (by omega), Nat.testBit_to_div_mod, Nat.testBit_to_div_mod]
    have hd : (a * 256 + c) / 2 ^ i = a / 2 ^ (i - 8) := by
      rw [show (2 : ℕ) ^ i = 2 ^ 8 * 2 ^ (i - 8) by
            rw [← pow_add]; congr 1; omega,
          ← Nat.div_div_eq_div_mul]
      congr 1
      rw [show (256 : ℕ) = 2 ^ 8 by norm_num, Nat.mul_comm,
        Nat.mul_add_div (by positivity), Nat.div_eq_of_lt (by omega), Nat.add_zero]
    rw [hd]

theorem hash16Val_testBit (planes : List (List ℚ)) (f : List ℚ)
    (hN : planes.length ≤ 16) (k : ℕ) (hk : k < 16) :
    ((hash16Val planes f).testBit (15 - k) = true) ↔
      (k < planes.length ∧ 0 < dot (planes.getD k []) f) := by
  unfold hash16Val
  rw [testBit_byte_combo _ _ _ (accByte_lt f _ 0 0 (by norm_num))]
  by_cases hk8 : k < 8
  · rw [if_neg (by omega), show 15 - k - 8 = 7 - k by omega]
    rw [accByte_testBit f _ 0 0 (7 - k) (by simp)]
    simp only [Nat.zero_testBit, Bool.false_eq_true, false_or, Nat.zero_add]
    constructor
    · rintro ⟨t, ht, hti, htd⟩
      have htk : t = k := by omega
      subst htk
      rw [List.length_take] at ht
      refine ⟨by omega, ?_⟩
      rwa [List.getD_eq_getElem?_getD, List.getElem?_take, if_pos hk8,
        ← List.getD_eq_getElem?_getD] at htd
    · rintro ⟨hkN, htd⟩
      refine ⟨k, by rw [List.length_take]; omega, by omega, ?_⟩
      rwa [List.getD_eq_getElem?_getD, List.getElem?_take, if_pos hk8,
        ← List.getD_eq_getElem?_getD]
  · rw [if_pos (by omega)]
    rw [accByte_testBit f _ 0 0 (15 - k) (by simp [hN])]
    simp only [Nat.zero_testBit, Bool.false_eq_true, false_or, Nat.zero_add]
    constructor
    · rintro ⟨t, ht, hti, htd⟩
      have htk : t = k - 8 := by omega
      subst htk
      rw [List.length_drop] at ht
      refine ⟨by omega, ?_⟩
      rwa [List.getD_eq_getElem?_getD, List.getElem?_drop,
        show 8 + (k - 8) = k by omega, ← List.getD_eq_getElem?_getD] at htd
    · rintro ⟨hkN, htd⟩
      refine ⟨k - 8, by rw [List.length_drop]; omega, by omega, ?_⟩
      rwa [List.getD_eq_getElem?_getD, List.getElem?_drop,
        show 8 + (k - 8) = k by omega, ← List.getD_eq_getElem?_getD]

theorem hash16Val_lt (planes : List (List ℚ)) (f : List ℚ) :
    hash16Val planes f < 2 ^ 16 := by
  unfold hash16Val
  have h1 := accByte_lt f (planes.take 8) 0 0 (by norm_num)
  have h2 := accByte_lt f (planes.drop 8) 0 0 (by norm_num)
  omega

theorem hash16_bit_contract (planes : List (List ℚ)) (f : List ℚ)
    (hv : 0 < f.length) (hN : planes.length ≤ 16)
    (hlen : ∀ p ∈ planes, p.length = f.length) :
    ∃ h, Hash16 planes f = .ok h ∧ h < 2 ^ 16 ∧
      ∀ k, k < 16 →
        (h.testBit (15 - k) = true ↔
          (k < planes.length ∧ 0 < dot (planes.getD k []) f)) :=
  ⟨hash16Val planes f,
   Hash16_ok planes f (by omega) hN (fun p hp => (hlen p hp).symm),
   hash16Val_lt planes f,
   fun k hk => hash16Val_testBit planes f hN k hk⟩

theorem hash16_bit_contract_witness :
    ∃ h, Hash16 [[0,0,1],[0,1,0],[1,0,0]] [2,2,2] = .ok h ∧ h < 2 ^ 16 ∧
      ∀ k, k < 16 →
        (h.testBit (15 - k) = true ↔
          (k < 3 ∧ 0 < dot ([[(0:ℚ),0,1],[0,1,0],[1,0,0]].getD k []) [2,2,2])) :=
  hash16_bit_contract _ _ (by norm_num) (by norm_num)
    (by intro p hp; fin_cases hp <;> rfl)

/-! ## C2: the forward-index extension rule -/

theorem extendVec_getD (offset : ℕ) (orig : List ℚ) :
    ∀ (cd : List ℚ) (i k : ℕ),
      (extendVec offset cd i orig).getD k 0 =
        if i + offset ≤ k ∧ k < i + offset + orig.length then
          orig.getD (k - i - offset) 0
        else cd.getD k 0 := by
  induction orig with
  | nil =>
      intro cd i k
      simp only [extendVec, List.length_nil]
      rw [if_neg (by omega)]
  | cons x rest ih =>
      intro cd i k
      simp only [extendVec, List.length_cons]
      by_cases hidx : i + offset < cd.length
      · rw [if_pos hidx, ih]
        rcases Nat.lt_trichotomy k (i + offset) with hk | hk | hk
        · rw [if_neg (by omega), if_neg (by omega)]
          simp only [List.getD_eq_getElem?_getD, List.getElem?_set]
          rw [if_neg (by omega)]
        · subst hk
          rw [if_neg (by omega), if_pos (by omega)]
          rw [show i + offset - i - offset = 0 by omega]
          simp only [List.getD_cons_zero, List.getD_eq_getElem?_getD,
            List.getElem?_set, if_pos rfl, if_pos hidx]
          simp
        · by_cases hw : k < i + offset + (rest.length + 1)
          · rw [if_pos (by omega), if_pos (by omega)]
            rw [show k - i - offset = (k - (i + 1) - offset) + 1 by omega]
            rw [List.getD_cons_succ]
          · rw [if_neg (by omega), if_neg (by omega)]
            simp only [List.getD_eq_getElem?_getD, List.getElem?_set]
            rw [if_neg (by omega)]
      · rw [if_neg hidx, ih]
        have hlen : (cd ++ List.replicate (i + offset - cd.length) 0 ++ [x]).length
            = i + offset + 1 := by
          simp
          omega
        rcases Nat.lt_trichotomy k (i + offset) with hk | hk | hk
        · rw [if_neg (by omega), if_neg (by omega)]
          simp only [List.getD_eq_getElem?_getD, List.getElem?_append,
            List.getElem?_replicate, List.length_append, List.length_replicate]
          by_cases hck : k < cd.length
          · rw [if_pos (by omega), if_pos hck]
          · rw [if_pos (by omega), if_neg hck, if_pos (by omega)]
            simp only [Option.getD_some]
            rw [List.getElem?_eq_none (by omega)]
            rfl
        · subst hk
          rw [if_neg (by omega), if_pos (by omega)]
          rw [show i + offset - i - offset = 0 by omega]
          simp only [List.getD_cons_zero]
          rw [List.getD_eq_getElem?_getD, List.getElem?_append,
            if_neg (by simp; omega)]
          have hz : i + offset -
              (cd ++ List.replicate (i + offset - cd.length) 0).length = 0 := by
            simp
            omega
          rw [hz]
          simp
        · by_cases hw : k < i + offset + (rest.length + 1)
          · rw [if_pos (by omega), if_pos (by omega)]
            rw [show k - i - offset = (k - (i + 1) - offset) + 1 by omega]
            rw [List.getD_cons_succ]
          · rw [if_neg (by omega), if_neg (by omega)]
            rw [List.getD_eq_getElem?_getD, List.getElem?_eq_none (by omega),
              List.getD_eq_getElem?_getD, List.getElem?_eq_none (by omega)]

theorem extendVec_length (offset : ℕ) (orig : List ℚ) :
    ∀ (cd : List ℚ) (i : ℕ),
      (extendVec offset cd i orig).length =
        if orig = [] then cd.length
        else max cd.length (i + offset + orig.length) := by
  induction orig with
  | nil =>
      intro cd i
      simp [extendVec]
  | cons x rest ih =>
      intro cd i
      simp only [extendVec]
      by_cases hidx : i + offset < cd.length
      · rw [if_pos hidx, ih, if_neg (List.cons_ne_nil x rest)]
        by_cases hrest : rest = []
        · rw [if_pos hrest]
          simp only [List.length_set, hrest, List.length_cons, List.length_nil]
          omega
        · rw [if_neg hrest]
          simp only [List.length_set, List.length_cons]
          omega
      · rw [if_neg hidx, ih, if_neg (List.cons_ne_nil x rest)]
        have hl : (cd ++ List.replicate (i + offset - cd.length) 0 ++ [x]).length
            = i + offset + 1 := by
          simp
          omega
        by_cases hrest : rest = []
        · rw [if_pos hrest, hl]
          simp only [hrest, List.length_cons, List.length_nil]
          omega
        · rw [if_neg hrest, hl, List.length_cons]
          omega

/-- C2 (corrected): when `d.uid` already has a stored entry, `InMemory.Index`
    extends it in place.  The offset is
    `d.time_index/SamplePeriod − stored.time_index/SamplePeriod` (Go
    truncated division, not `(d.time_index − stored.time_index)/SamplePeriod`
    as the claim states); a non-positive offset drops the incoming samples,
    a positive one writes incoming position `i` at stored position
    `i + offset`, zero-padding any gap, and the stored `time_index` (and
    uid) never change. -/
theorem inmemory_index_extend_spec (cfg : LSHConfigs) (m : InMemory)
    (d curr : Document) (hfind : m.docs.find? d.uid = some curr) :
    ∃ nv, (m.Index cfg d).docs.find? d.uid = some ⟨curr.uid, curr.index, nv⟩ ∧
      ((Int.tdiv d.index cfg.SamplePeriod -
          Int.tdiv curr.index cfg.SamplePeriod ≤ 0 → nv = curr.vector) ∧
       (0 < Int.tdiv d.index cfg.SamplePeriod -
          Int.tdiv curr.index cfg.SamplePeriod →
         (∀ k : ℕ, nv.getD k 0 =
           if (Int.tdiv d.index cfg.SamplePeriod -
                Int.tdiv curr.index cfg.SamplePeriod).toNat ≤ k ∧
              k < (Int.tdiv d.index cfg.SamplePeriod -
                Int.tdiv curr.index cfg.SamplePeriod).toNat + d.vector.length
           then d.vector.getD
             (k - (Int.tdiv d.index cfg.SamplePeriod -
                Int.tdiv curr.index cfg.SamplePeriod).toNat) 0
           else curr.vector.getD k 0) ∧
         nv.length = if d.vector = [] then curr.vector.length
           else max curr.vector.length
             ((Int.tdiv d.index cfg.SamplePeriod -
                Int.tdiv curr.index cfg.SamplePeriod).toNat +
               d.vector.length))) := by
  unfold InMemory.Index
  rw [hfind]
  simp only
  by_cases hoff : 0 < Int.tdiv d.index cfg.SamplePeriod -
      Int.tdiv curr.index cfg.SamplePeriod
  · refine ⟨extendVec (Int.tdiv d.index cfg.SamplePeriod -
        Int.tdiv curr.index cfg.SamplePeriod).toNat curr.vector 0 d.vector,
      ?_, fun hle => absurd hoff (by omega), fun _ => ⟨fun k => ?_, ?_⟩⟩
    · rw [if_pos hoff]
      exact GoMap.find?_insert_self _ _ _
    · rw [extendVec_getD]
      simp only [Nat.zero_add, Nat.sub_zero]
    · rw [extendVec_length]
      by_cases hd : d.vector = []
      · simp [hd]
      · rw [if_neg hd, if_neg hd, Nat.zero_add]
  · refine ⟨curr.vector, ?_, fun _ => rfl, fun hlt => absurd hlt hoff⟩
    rw [if_neg hoff]
    exact GoMap.find?_insert_self _ _ _

/-- C2 counterexample: with `SamplePeriod = 60`, a stored entry at
    `time_index 50` and an incoming document at `time_index 70`, the
    claim computes `offset_samples = (70 − 50)/60 = 0 ≤ 0` and mandates
    that the update be ignored; the code computes
    `70/60 − 50/60 = 1` and extends the stored vector. -/
theorem inmemory_index_offset_counterexample :
    Int.tdiv ((70 : ℤ) - 50) 60 ≤ 0 ∧
    (InMemory.Index ⟨1, 1, 2, 60, 7200, id⟩ ⟨[(1, ⟨1, 50, [1, 2]⟩)]⟩
        ⟨1, 70, [5, 6]⟩).docs.find? 1 = some ⟨1, 50, [1, 5, 6]⟩ ∧
    ([1, 5, 6] : List ℚ) ≠ [1, 2] :=
  ⟨by decide, by decide, by decide⟩

theorem inmemory_index_extend_spec_witness :
    ∃ nv, ((⟨[(1, ⟨1, 50, ([1, 2] : List ℚ)⟩)]⟩ : InMemory).Index
        ⟨1, 1, 2, 60, 7200, id⟩ ⟨1, 70, [5, 6]⟩).docs.find? 1 =
          some ⟨1, 50, nv⟩ ∧
      ((Int.tdiv (70 : ℤ) 60 - Int.tdiv 50 60 ≤ 0 → nv = [1, 2]) ∧
       (0 < Int.tdiv (70 : ℤ) 60 - Int.tdiv 50 60 →
         (∀ k : ℕ, nv.getD k 0 =
           if (Int.tdiv (70 : ℤ) 60 - Int.tdiv 50 60).toNat ≤ k ∧
              k < (Int.tdiv (70 : ℤ) 60 - Int.tdiv 50 60).toNat + 2
           then [(5 : ℚ), 6].getD
             (k - (Int.tdiv (70 : ℤ) 60 - Int.tdiv 50 60).toNat) 0
           else [(1 : ℚ), 2].getD k 0) ∧
         nv.length = if ([(5 : ℚ), 6] : List ℚ) = [] then 2
           else max 2 ((Int.tdiv (70 : ℤ) 60 - Int.tdiv 50 60).toNat + 2))) := by
  have h := inmemory_index_extend_spec ⟨1, 1, 2, 60, 7200, id⟩
    ⟨[(1, ⟨1, 50, [1, 2]⟩)]⟩ ⟨1, 70, [5, 6]⟩ ⟨1, 50, [1, 2]⟩ (by decide)
  simpa using h

/-! ## C7: `Engine.Index` argument errors -/

theorem hashLoop_error (f : List ℚ) (ps : List (List ℚ)) (b c bc : ℕ)
    (buf : List ℕ) (e : Err) (h : hashLoop f ps b c bc buf = .error e) :
    e = .vectorLengthMismatch := by
  induction ps generalizing b c bc buf with
  | nil => simp [hashLoop] at h
  | cons p ps ih =>
      simp only [hashLoop] at h
      split at h
      · exact (Except.error.injEq _ _).mp h |>.symm
      · split at h
        · exact ih _ _ _ _ h
        · exact ih _ _ _ _ h

theorem Hash16_error (planes : List (List ℚ)) (f : List ℚ) (e : Err)
    (h : Hash16 planes f = .error e) :
    e = .noVector ∨ e = .numHyperplanesExceedHashBits ∨
      e = .vectorLengthMismatch := by
  unfold Hash16 at h
  split at h
  · exact Or.inl ((Except.error.injEq _ _).mp h).symm
  · split at h
    · exact Or.inr (Or.inl ((Except.error.injEq _ _).mp h).symm)
    · unfold hyperplanesHash at h
      cases hh : hashLoop f planes 0 0 0 [0, 0] with
      | ok v => rw [hh] at h; simp [Except.map] at h
      | error e' =>
          rw [hh] at h
          simp only [Except.map] at h
          have := hashLoop_error f planes 0 0 0 [0, 0] e' hh
          subst this
          exact Or.inr (Or.inr ((Except.error.injEq _ _).mp h).symm)

theorem tableIndex_error (cfg : LSHConfigs) (t : Table) (d : Document)
    (e : Err) (h : t.Index cfg d = .error e) :
    e = .noVector ∨ e = .numHyperplanesExceedHashBits ∨
      e = .vectorLengthMismatch := by
  unfold Table.Index at h
  cases hh : Hash16 t.planes d.vector with
  | ok v => rw [hh] at h; simp at h
  | error e' =>
      rw [hh] at h
      simp only [Except.error.injEq] at h
      subst h
      exact Hash16_error _ _ _ hh

theorem indexTables_error (cfg : LSHConfigs) (d : Document)
    (ts : List Table) (e : Err) (h : (indexTables cfg d ts).1 = some e) :
    e = .noVector ∨ e = .numHyperplanesExceedHashBits ∨
      e = .vectorLengthMismatch := by
  induction ts with
  | nil => simp [indexTables] at h
  | cons t ts ih =>
      simp only [indexTables] at h
      split at h
      · rename_i e' he
        simp only [Option.some.injEq] at h
        subst h
        exact tableIndex_error cfg t d e' he
      · exact ih h

/-- C7: `Engine.Index` rejects exactly the documents of the wrong length
    (`InvalidDocument`) and, among the right-length ones, exactly those
    whose standard deviation — gonum sample standard deviation, zero iff
    the sample variance is zero — vanishes (`NoVectorComplexity`); in
    either case neither the tables nor the forward index change, and the
    caller document is untouched. -/
theorem lsh_index_error_cases (l : LSH) (d : Document) :
    ((l.Index d).1 = some .invalidDocument ↔
        d.vector.length ≠ l.Cfg.VectorLength) ∧
    ((l.Index d).1 = some .noVectorComplexity ↔
        (d.vector.length = l.Cfg.VectorLength ∧ stdDevIsZero d.vector = true)) ∧
    ((d.vector.length ≠ l.Cfg.VectorLength ∨ stdDevIsZero d.vector = true) →
      (l.Index d).2.1 = l ∧ (l.Index d).2.2 = d) := by
  unfold LSH.Index
  by_cases hlen : d.vector.length ≠ l.Cfg.VectorLength
  · rw [if_pos hlen]
    exact ⟨iff_of_true rfl hlen,
      iff_of_false (by simp) (fun h => hlen h.1),
      fun _ => ⟨rfl, rfl⟩⟩
  · rw [if_neg hlen]
    push_neg at hlen
    by_cases hsd : stdDevIsZero d.vector = true
    · rw [if_pos hsd]
      exact ⟨iff_of_false (by simp) (fun h => h hlen),
        iff_of_true rfl ⟨hlen, hsd⟩,
        fun _ => ⟨rfl, rfl⟩⟩
    · rw [if_neg hsd]
      simp only
      rcases hit : (indexTables l.Cfg { d with vector := l.Cfg.TFunc d.vector }
          l.Tables).1 with _ | e <;> simp only [hit]
      · exact ⟨iff_of_false (by simp) (fun h => h hlen),
          iff_of_false (by simp) (fun h => hsd h.2),
          fun hc => hc.elim (fun h => absurd hlen h) (fun h => absurd h hsd)⟩
      · have he := indexTables_error _ _ _ _ hit
        refine ⟨iff_of_false ?_ (fun h => h hlen),
          iff_of_false ?_ (fun h => hsd h.2),
          fun hc => hc.elim (fun h => absurd hlen h) (fun h => absurd h hsd)⟩
        · intro h
          simp only [Option.some.injEq] at h
          rcases he with h1 | h1 | h1 <;> rw [h] at h1 <;> exact Err.noConfusion h1
        · intro h
          simp only [Option.some.injEq] at h
          rcases he with h1 | h1 | h1 <;> rw [h] at h1 <;> exact Err.noConfusion h1

/-! ## C3: the caller's document is transformed in place -/

/-- C3 counterexample: an engine whose configured transform scales by
    `1/5` — exactly what the default L2-normalizing transform does to the
    vector `[3,4]` — changes the caller's vector during `Index`: after
    the call it holds `[3/5, 4/5]`, not `[3, 4]`. -/
theorem lsh_index_mutates_caller_vector :
    ((⟨⟨1, 1, 2, 60, 7200, fun v => v.map (· / 5)⟩,
        [⟨[[1, 0]], [], []⟩], ⟨[]⟩⟩ : LSH).Index
      ⟨1, 0, [3, 4]⟩).2.2.vector ≠ [3, 4] := by
  norm_num [LSH.Index, stdDevIsZero, gonumVariance, gonumMean, indexTables,
    Table.Index, Hash16, hyperplanesHash, hashLoop, dot, InMemory.Index,
    GoMap.find?, GoMap.insert, Except.map]

/-- C3 (corrected): `Index` and `Search` apply the configured transform
    to the caller's vector in place (after the length check, and for
    `Index` also after the complexity check), so the caller's document
    holds the transformed values after the call; only the forward index
    receives an unmodified copy of the original document. -/
theorem lsh_caller_document_after (l : LSH) (d : Document) (s : SearchOpts)
    (corr : List ℚ → List ℚ → ℚ) :
    ((l.Index d).2.2 =
      if d.vector.length = l.Cfg.VectorLength ∧ stdDevIsZero d.vector = false
      then { d with vector := l.Cfg.TFunc d.vector } else d) ∧
    ((LSH.Search corr l d s).2 =
      if d.vector.length = l.Cfg.VectorLength
      then { d with vector := l.Cfg.TFunc d.vector } else d) ∧
    ((l.Index d).1 = none →
      (l.Index d).2.1.Docs = l.Docs.Index l.Cfg d) := by
  refine ⟨?_, ?_, ?_⟩
  · unfold LSH.Index
    by_cases hlen : d.vector.length ≠ l.Cfg.VectorLength
    · rw [if_pos hlen, if_neg (by tauto)]
    · rw [if_neg hlen]
      push_neg at hlen
      by_cases hsd : stdDevIsZero d.vector = true
      · rw [if_pos hsd, if_neg (by simp [hsd])]
      · rw [if_neg hsd]
        simp only
        rw [if_pos ⟨hlen, by simpa using hsd⟩]
        rcases hit : (indexTables l.Cfg { d with vector := l.Cfg.TFunc d.vector }
            l.Tables).1 with _ | e <;> simp [hit]
  · unfold LSH.Search
    by_cases hlen : d.vector.length ≠ l.Cfg.VectorLength
    · rw [if_pos hlen, if_neg (by tauto)]
    · rw [if_neg hlen]
      push_neg at hlen
      rw [if_pos hlen]
      simp only
      split
      · rfl
      · split
        · rfl
        · split <;> rfl
  · unfold LSH.Index
    by_cases hlen : d.vector.length ≠ l.Cfg.VectorLength
    · rw [if_pos hlen]
      intro h
      simp at h
    · rw [if_neg hlen]
      by_cases hsd : stdDevIsZero d.vector = true
      · rw [if_pos hsd]
        intro h
        simp at h
      · rw [if_neg hsd]
        simp only
        rcases hit : (indexTables l.Cfg { d with vector := l.Cfg.TFunc d.vector }
            l.Tables).1 with _ | e <;> simp [hit]

/-! ## C10: a reachable `GetVector` panic -/

set_option maxRecDepth 8000
set_option maxHeartbeats 1000000

/-- C10 (code bug): `InMemory.GetVector` is not total on positions the
    Filter phase produces.  Re-indexing a uid at a time earlier than its
    stored base time is dropped by the forward index but still recorded in
    the tables, so a later all-lags search feeds `GetVector` a position
    before the stored `time_index`; the Go slice expression
    `vec[startOffset:endOffset]` then has a negative start and panics.
    The scenario: index `(uid 1, t=100)`, then `(uid 1, t=40)` (both
    succeed), search with `MaxLag = -1`; the filter returns position 40
    for uid 1 and the score phase panics. -/
theorem getvector_panic_after_past_reindex :
    ((⟨⟨1, 1, 2, 60, 60, id⟩, [⟨[[1, 0]], [], []⟩], ⟨[]⟩⟩ : LSH).Index
        ⟨1, 100, [3, 4]⟩).1 = none ∧
    (((⟨⟨1, 1, 2, 60, 60, id⟩, [⟨[[1, 0]], [], []⟩], ⟨[]⟩⟩ : LSH).Index
        ⟨1, 100, [3, 4]⟩).2.1.Index ⟨1, 40, [3, 4]⟩).1 = none ∧
    ((((⟨⟨1, 1, 2, 60, 60, id⟩, [⟨[[1, 0]], [], []⟩], ⟨[]⟩⟩ : LSH).Index
        ⟨1, 100, [3, 4]⟩).2.1.Index ⟨1, 40, [3, 4]⟩).2.1.filterDocsByLag
          ⟨0, 0, [3, 4]⟩ (-1)).find? 1 = some {40, 100} ∧
    ((((⟨⟨1, 1, 2, 60, 60, id⟩, [⟨[[1, 0]], [], []⟩], ⟨[]⟩⟩ : LSH).Index
        ⟨1, 100, [3, 4]⟩).2.1.Index ⟨1, 40, [3, 4]⟩).2.1.Docs.GetVector
          ⟨1, 1, 2, 60, 60, id⟩ 1 40) = .panic ∧
    (LSH.Search (fun _ _ => 0)
      (((⟨⟨1, 1, 2, 60, 60, id⟩, [⟨[[1, 0]], [], []⟩], ⟨[]⟩⟩ : LSH).Index
        ⟨1, 100, [3, 4]⟩).2.1.Index ⟨1, 40, [3, 4]⟩).2.1
      ⟨0, 0, [3, 4]⟩ ⟨10, 0, 0, -1⟩).1 = .ok none := by
  have hstate : (((⟨⟨1, 1, 2, 60, 60, id⟩, [⟨[[1, 0]], [], []⟩], ⟨[]⟩⟩ :
      LSH).Index ⟨1, 100, [3, 4]⟩).2.1.Index ⟨1, 40, [3, 4]⟩).2.1 =
      ⟨⟨1, 1, 2, 60, 60, id⟩,
       [⟨[[1, 0]], [(60, [(32768, {1})]), (0, [(32768, {1})])],
          [(1, [(32768, [100, 40])])]⟩],
       ⟨[(1, ⟨1, 100, [3, 4]⟩)]⟩⟩ := by
    norm_num [LSH.Index, stdDevIsZero, gonumVariance, gonumMean, indexTables,
      Table.Index, Hash16, hyperplanesHash, hashLoop, dot, InMemory.Index,
      GoMap.find?, GoMap.insert, Except.map]
    decide
  rw [hstate]
  refine ⟨?_, ?_, ?_, ?_, ?_⟩
  · norm_num [LSH.Index, stdDevIsZero, gonumVariance, gonumMean, indexTables,
      Table.Index, Hash16, hyperplanesHash, hashLoop, dot, InMemory.Index,
      GoMap.find?, GoMap.insert, Except.map]
  · norm_num [LSH.Index, stdDevIsZero, gonumVariance, gonumMean, indexTables,
      Table.Index, Hash16, hyperplanesHash, hashLoop, dot, InMemory.Index,
      GoMap.find?, GoMap.insert, Except.map, hstate]
  · norm_num [LSH.filterDocsByLag, mergeDocIds, Table.Filter, filterBucket,
      Hash16, hyperplanesHash, hashLoop, dot, Except.map, GoMap.find?,
      GoMap.insert, Nat.shiftLeft_eq, Finset.sort_singleton]
  · decide
  · have hs : Finset.sort (fun x1 x2 => x1 ≤ x2) ({40, 100} : Finset ℤ) =
        [40, 100] := by
      rw [show ({40, 100} : Finset ℤ) = insert 40 {100} from rfl,
        Finset.sort_insert]
      · rw [Finset.sort_singleton]
      · intro b hb
        simp at hb
        omega
      · decide
    norm_num [LSH.Search, SearchOpts.Validate, LSH.filterDocs,
      LSH.filterDocsByLag, mergeDocIds, Table.Filter, filterBucket,
      Hash16, hyperplanesHash, hashLoop, dot, Except.map, GoMap.find?,
      GoMap.insert, scoreDocs, InMemory.GetVector, Results.New,
      Nat.shiftLeft_eq, Finset.sort_singleton, hs]

/-! ## C9: the false-negative statistics -/

theorem collectThetas_step (θ : ℚ) (h : θ < 1) :
    collectThetas θ = θ :: collectThetas (θ + 1 / 20) := by
  rw [collectThetas, dif_pos h]

theorem collectThetas_eval :
    collectThetas (3 / 5) =
      [3 / 5, 13 / 20, 7 / 10, 3 / 4, 4 / 5, 17 / 20, 9 / 10, 19 / 20] := by
  have stop : collectThetas 1 = [] := by
    rw [collectThetas, dif_neg (by norm_num)]
  rw [collectThetas_step _ (by norm_num),
    show (3 / 5 : ℚ) + 1 / 20 = 13 / 20 by norm_num,
    collectThetas_step _ (by norm_num),
    show (13 / 20 : ℚ) + 1 / 20 = 7 / 10 by norm_num,
    collectThetas_step _ (by norm_num),
    show (7 / 10 : ℚ) + 1 / 20 = 3 / 4 by norm_num,
    collectThetas_step _ (by norm_num),
    show (3 / 4 : ℚ) + 1 / 20 = 4 / 5 by norm_num,
    collectThetas_step _ (by norm_num),
    show (4 / 5 : ℚ) + 1 / 20 = 17 / 20 by norm_num,
    collectThetas_step _ (by norm_num),
    show (17 / 20 : ℚ) + 1 / 20 = 9 / 10 by norm_num,
    collectThetas_step _ (by norm_num),
    show (9 / 10 : ℚ) + 1 / 20 = 19 / 20 by norm_num,
    collectThetas_step _ (by norm_num),
    show (19 / 20 : ℚ) + 1 / 20 = 1 by norm_num,
    stop]

/-- C9: `Stats` reports the forward-index entry count and exactly one
    false-negative entry per threshold `θ ∈ {0.60, 0.65, …, 0.95}` (the
    loop over exact values; Go's floating `theta += 0.05` visits the same
    eight thresholds up to rounding of order `10⁻¹⁶`), each with
    probability `(1 − (1 − (2/π)·acos θ)^NumHyperplanes)^NumTables`. -/
theorem lsh_stats_spec (l : LSH) :
    (l.Stats).NumDocs = l.Docs.docs.length ∧
    (l.Stats).FalseNegativeErrors =
      ([3 / 5, 13 / 20, 7 / 10, 3 / 4, 4 / 5, 17 / 20, 9 / 10, 19 / 20] :
          List ℚ).map
        (fun θ : ℚ => ⟨(θ : ℝ),
          (1 - (1 - 2 / Real.pi * Real.arccos (θ : ℝ)) ^
              l.Cfg.NumHyperplanes) ^ l.Cfg.NumTables⟩) := by
  refine ⟨rfl, ?_⟩
  unfold LSH.Stats
  rw [collectThetas_eval]

/-! ## C1: the time-sharded `Table.Filter` row range -/

theorem tdiv_mono_left {x y p : ℤ} (hp : 0 < p) (h : x ≤ y) :
    x.tdiv p ≤ y.tdiv p := by
  rcases le_or_lt 0 x with hx | hx
  · rw [Int.tdiv_eq_ediv hx (le_of_lt hp),
      Int.tdiv_eq_ediv (le_trans hx h) (le_of_lt hp)]
    exact Int.ediv_le_ediv hp h
  · rcases le_or_lt 0 y with hy | hy
    · have h1 : x.tdiv p ≤ 0 := by
        have h2 : (0 : ℤ) ≤ (-x).tdiv p :=
          Int.tdiv_nonneg (by omega) (le_of_lt hp)
        rw [Int.neg_tdiv] at h2
        omega
      exact le_trans h1 (Int.tdiv_nonneg hy (le_of_lt hp))
    · have h1 : (-y).tdiv p ≤ (-x).tdiv p := by
        rw [Int.tdiv_eq_ediv (by omega) (le_of_lt hp),
          Int.tdiv_eq_ediv (by omega) (le_of_lt hp)]
        exact Int.ediv_le_ediv hp (by omega)
      rw [Int.neg_tdiv, Int.neg_tdiv] at h1
      omega

theorem foldl_keep_insert (keep : ℤ → Bool) (tss : List ℤ) :
    ∀ im : Finset ℤ,
      tss.foldl (fun im index => if keep index then insert index im else im) im
        = im ∪ (tss.filter keep).toFinset := by
  induction tss with
  | nil => intro im; simp
  | cons x rest ih =>
      intro im
      simp only [List.foldl_cons, List.filter_cons]
      by_cases hx : keep x
      · rw [if_pos hx, if_pos hx, ih, List.toFinset_cons,
          Finset.union_insert, Finset.insert_union]
      · rw [if_neg hx, if_neg hx, ih]

theorem filterBucket_find? (t : Table) (hash : ℕ) (keep : ℤ → Bool)
    (rb : Bitmap) (acc : GoMap ℕ (Finset ℤ)) (uid : ℕ) :
    (filterBucket t hash keep rb acc).find? uid =
      if uid ∈ rb then
        some ((acc.find? uid).getD ∅ ∪
          (((((t.doc2hash.find? uid).getD []).find? hash).getD []).filter
            keep).toFinset)
      else acc.find? uid := by
  unfold filterBucket
  have key : ∀ us : List ℕ, us.Nodup → ∀ acc : GoMap ℕ (Finset ℤ),
      (us.foldl
        (fun acc uid =>
          acc.insert uid
            ((((((t.doc2hash.find? uid).getD []).find? hash).getD [])).foldl
              (fun im index => if keep index then insert index im else im)
              ((acc.find? uid).getD ∅)))
        acc).find? uid =
      if uid ∈ us then
        some ((acc.find? uid).getD ∅ ∪
          (((((t.doc2hash.find? uid).getD []).find? hash).getD []).filter
            keep).toFinset)
      else acc.find? uid := by
    intro us
    induction us with
    | nil => intro _ acc; simp
    | cons u us ih =>
        intro hnd acc
        rw [List.nodup_cons] at hnd
        simp only [List.foldl_cons, List.mem_cons]
        rw [ih hnd.2]
        by_cases huid : uid = u
        · subst huid
          rw [if_neg hnd.1, if_pos (Or.inl rfl),
            GoMap.find?_insert_self, foldl_keep_insert]
        · by_cases hin : uid ∈ us
          · rw [if_pos hin, if_pos (Or.inr hin),
              GoMap.find?_insert_ne _ _ _ _ (fun h => huid h.symm)]
          · rw [if_neg hin, if_neg (by tauto),
              GoMap.find?_insert_ne _ _ _ _ (fun h => huid h.symm)]
  rw [key _ (rb.sort_nodup _) acc]
  simp only [Finset.mem_sort]

open Classical in
theorem filterRows_find? (t : Table) (hash : ℕ) (keep : ℤ → Bool)
    (startRow rs : ℤ) (n : ℕ) (uid : ℕ) :
    GoMap.find?
      ((List.range n).foldl
        (fun acc (i : ℕ) =>
          match t.table.find? (startRow + (i : ℤ) * rs) with
          | none => acc
          | some tblRow =>
              match tblRow.find? hash with
              | none => acc
              | some rb => filterBucket t hash keep rb acc)
        ([] : GoMap ℕ (Finset ℤ))) uid =
    if ∃ i : ℕ, i < n ∧ ∃ tbl rb,
        t.table.find? (startRow + (i : ℤ) * rs) = some tbl ∧
        tbl.find? hash = some rb ∧ uid ∈ rb
    then some
      (((((t.doc2hash.find? uid).getD []).find? hash).getD []).filter
        keep).toFinset
    else none := by
  induction n with
  | zero =>
      rw [if_neg (by rintro ⟨i, hi, _⟩; omega)]
      rfl
  | succ n ih =>
      rw [List.range_succ, List.foldl_append, List.foldl_cons, List.foldl_nil]
      rcases htbl : t.table.find? (startRow + (n : ℤ) * rs) with _ | tbl
      · simp only
        rw [ih]
        by_cases hp : ∃ i : ℕ, i < n ∧ ∃ tbl rb,
            t.table.find? (startRow + (i : ℤ) * rs) = some tbl ∧
            tbl.find? hash = some rb ∧ uid ∈ rb
        · rw [if_pos hp, if_pos]
          obtain ⟨i, hi, w⟩ := hp
          exact ⟨i, by omega, w⟩
        · rw [if_neg hp, if_neg]
          rintro ⟨i, hi, tbl, rb, h1, h2, h3⟩
          rcases Nat.lt_or_ge i n with hin | hin
          · exact hp ⟨i, hin, tbl, rb, h1, h2, h3⟩
          · have : i = n := by omega
            subst this
            rw [htbl] at h1
            exact Option.noConfusion h1
      · simp only
        rcases hrb : tbl.find? hash with _ | rb
        · simp only
          rw [ih]
          by_cases hp : ∃ i : ℕ, i < n ∧ ∃ tbl rb,
              t.table.find? (startRow + (i : ℤ) * rs) = some tbl ∧
              tbl.find? hash = some rb ∧ uid ∈ rb
          · rw [if_pos hp, if_pos]
            obtain ⟨i, hi, w⟩ := hp
            exact ⟨i, by omega, w⟩
          · rw [if_neg hp, if_neg]
            rintro ⟨i, hi, tbl', rb', h1, h2, h3⟩
            rcases Nat.lt_or_ge i n with hin | hin
            · exact hp ⟨i, hin, tbl', rb', h1, h2, h3⟩
            · have : i = n := by omega
              subst this
              rw [htbl] at h1
              rw [← (Option.some.injEq _ _).mp h1] at h2
              rw [hrb] at h2
              exact Option.noConfusion h2
        · simp only
          rw [filterBucket_find?, ih]
          by_cases hmem : uid ∈ rb
          · rw [if_pos hmem]
            by_cases hp : ∃ i : ℕ, i < n ∧ ∃ tbl rb,
                t.table.find? (startRow + (i : ℤ) * rs) = some tbl ∧
                tbl.find? hash = some rb ∧ uid ∈ rb
            · rw [if_pos hp,
                if_pos ⟨n, Nat.lt_succ_self n, tbl, rb, htbl, hrb, hmem⟩]
              simp
            · rw [if_neg hp,
                if_pos ⟨n, Nat.lt_succ_self n, tbl, rb, htbl, hrb, hmem⟩]
              simp
          · rw [if_neg hmem]
            by_cases hp : ∃ i : ℕ, i < n ∧ ∃ tbl rb,
                t.table.find? (startRow + (i : ℤ) * rs) = some tbl ∧
                tbl.find? hash = some rb ∧ uid ∈ rb
            · rw [if_pos hp, if_pos]
              obtain ⟨i, hi, w⟩ := hp
              exact ⟨i, by omega, w⟩
            · rw [if_neg hp, if_neg]
              rintro ⟨i, hi, tbl', rb', h1, h2, h3⟩
              rcases Nat.lt_or_ge i n with hin | hin
              · exact hp ⟨i, hin, tbl', rb', h1, h2, h3⟩
              · have : i = n := by omega
                subst this
                rw [htbl] at h1
                rw [← (Option.some.injEq _ _).mp h1] at h2
                rw [hrb] at h2
                rw [← (Option.some.injEq _ _).mp h2] at h3
                exact hmem h3

theorem row_range_iff (si ei rs : ℤ) (hrs : 0 < rs) (hle : si ≤ ei)
    (r : ℤ) :
    (∃ i : ℕ,
      i < (Int.tdiv (Int.tdiv ei rs * rs - Int.tdiv si rs * rs) rs + 1).toNat ∧
      r = Int.tdiv si rs * rs + (i : ℤ) * rs) ↔
    ((∃ k : ℤ, r = k * rs) ∧ Int.tdiv si rs * rs ≤ r ∧
      r ≤ Int.tdiv ei rs * rs) := by
  have hAB : Int.tdiv si rs ≤ Int.tdiv ei rs := tdiv_mono_left hrs hle
  have hrows : Int.tdiv (Int.tdiv ei rs * rs - Int.tdiv si rs * rs) rs =
      Int.tdiv ei rs - Int.tdiv si rs := by
    rw [← Int.sub_mul, Int.mul_tdiv_cancel _ (by omega)]
  rw [hrows]
  constructor
  · rintro ⟨i, hi, rfl⟩
    have hiz : (i : ℤ) ≤ Int.tdiv ei rs - Int.tdiv si rs := by
      rcases Int.toNat_of_nonneg (show (0:ℤ) ≤ Int.tdiv ei rs -
          Int.tdiv si rs + 1 by omega) with ht
      omega
    refine ⟨⟨Int.tdiv si rs + i, by ring⟩, by nlinarith, ?_⟩
    have : (Int.tdiv si rs + (i : ℤ)) * rs ≤ Int.tdiv ei rs * rs := by
      apply mul_le_mul_of_nonneg_right (by omega) (by omega)
    nlinarith
  · rintro ⟨⟨k, rfl⟩, hlo, hhi⟩
    have hA : Int.tdiv si rs ≤ k := le_of_mul_le_mul_right hlo hrs
    have hB : k ≤ Int.tdiv ei rs := le_of_mul_le_mul_right hhi hrs
    refine ⟨(k - Int.tdiv si rs).toNat, by omega, ?_⟩
    have : ((k - Int.tdiv si rs).toNat : ℤ) = k - Int.tdiv si rs := by omega
    rw [this]
    ring

open Classical in
/-- C1 (corrected): for maxLag ≥ 0 the time-sharded `Table.Filter` unions
    bucket `h` from exactly the rows that are multiples of `RowSize` in
    the inclusive range `[trunc((t − maxLag)/RowSize)·RowSize,
    trunc((t + maxLag)/RowSize)·RowSize]` (Go truncated division; the
    upper bound does **not** include the `VectorLength·SamplePeriod` term
    of the claim), and returns per candidate exactly the stored
    timestamps of `(uid, h)` inside `[t − maxLag, t + maxLag]`. -/
theorem table_filter_spec (cfg : LSHConfigs) (t : Table) (d : Document)
    (maxLag : ℤ) (h0 : 0 ≤ maxLag) (hrs : 1 ≤ cfg.RowSize) (uid : ℕ) :
    (t.Filter cfg d maxLag).find? uid =
      if ∃ r : ℤ, (∃ k : ℤ, r = k * cfg.RowSize) ∧
          Int.tdiv (d.index - maxLag) cfg.RowSize * cfg.RowSize ≤ r ∧
          r ≤ Int.tdiv (d.index + maxLag) cfg.RowSize * cfg.RowSize ∧
          (∃ tbl rb, t.table.find? r = some tbl ∧
            tbl.find? (match Hash16 t.planes d.vector with
                       | .ok h => h
                       | .error _ => 0) = some rb ∧ uid ∈ rb)
      then some
        (((((t.doc2hash.find? uid).getD []).find?
              (match Hash16 t.planes d.vector with
               | .ok h => h
               | .error _ => 0)).getD []).filter
          (fun index => d.index - maxLag ≤ index ∧
            index ≤ d.index + maxLag)).toFinset
      else none := by
  unfold Table.Filter
  rw [if_pos (show maxLag > -1 by omega)]
  simp only
  rw [filterRows_find?]
  refine if_congr ?_ rfl rfl
  constructor
  · rintro ⟨i, hi, w⟩
    have hr := (row_range_iff (d.index - maxLag) (d.index + maxLag)
      cfg.RowSize (by omega) (by omega)
      (Int.tdiv (d.index - maxLag) cfg.RowSize * cfg.RowSize +
        (i : ℤ) * cfg.RowSize)).mp ⟨i, hi, rfl⟩
    exact ⟨_, hr.1, hr.2.1, hr.2.2, w⟩
  · rintro ⟨r, h1, h2, h3, w⟩
    obtain ⟨i, hi, rfl⟩ := (row_range_iff (d.index - maxLag)
      (d.index + maxLag) cfg.RowSize (by omega) (by omega) r).mpr ⟨h1, h2, h3⟩
    exact ⟨i, hi, w⟩

theorem table_filter_spec_witness :
    ((⟨[[1, 0, 0]], [(20, [(32768, {7})])], [(7, [(32768, [20])])]⟩ :
        Table).Filter ⟨1, 1, 3, 60, 10, id⟩ ⟨0, 0, [1, 1, 1]⟩ 0).find? 7 =
      none := by
  have h := table_filter_spec ⟨1, 1, 3, 60, 10, id⟩
    ⟨[[1, 0, 0]], [(20, [(32768, {7})])], [(7, [(32768, [20])])]⟩
    ⟨0, 0, [1, 1, 1]⟩ 0 (by norm_num) (by norm_num) 7
  rw [h, if_neg]
  rintro ⟨r, ⟨k, rfl⟩, h2, h3, tbl, rb, hfind, -⟩
  dsimp only at h2 h3 hfind
  have hs : Int.tdiv ((0 : ℤ) - 0) 10 * 10 = 0 := by decide
  have he : Int.tdiv ((0 : ℤ) + 0) 10 * 10 = 0 := by decide
  simp only [show ((0 : ℤ) - 0) = 0 + 0 by omega] at hs h2
  rw [hs] at h2
  rw [he] at h3
  have hk : k * 10 = 0 := by omega
  rw [hk] at hfind
  simp [GoMap.find?] at hfind

/-- C1 counterexample: with `RowSize = 10`, `VectorLength = 3`,
    `SamplePeriod = 60`, a query at `t = 0` with `maxLag = 0`, the row 20
    is a `RowSize` multiple inside the claim's row range
    `[trunc((0−0)/10)·10, trunc((0+3·60+0)/10)·10] = [0, 180]`, its bucket
    for the query's hash `0x8000` contains uid 7, and the stored time 20
    lies inside the claim's window — yet `Table.Filter` (which stops at
    row `trunc((0+0)/10)·10 = 0`) returns no entry for uid 7. -/
theorem table_filter_row_range_counterexample :
    Hash16 [[1, 0, 0]] [1, 1, 1] = .ok 32768 ∧
    Int.tdiv ((0 : ℤ) - 0) 10 * 10 ≤ 20 ∧
    (20 : ℤ) ≤ Int.tdiv ((0 : ℤ) + 3 * 60 + 0) 10 * 10 ∧
    (∃ k : ℤ, (20 : ℤ) = k * 10) ∧
    ((⟨[[1, 0, 0]], [(20, [(32768, {7})])], [(7, [(32768, [20])])]⟩ :
        Table).Filter ⟨1, 1, 3, 60, 10, id⟩ ⟨0, 0, [1, 1, 1]⟩ 0).find? 7 =
      none := by
  refine ⟨?_, by decide, by decide, ⟨2, by norm_num⟩, ?_⟩
  · norm_num [Hash16, hyperplanesHash, hashLoop, dot, Except.map,
      Nat.shiftLeft_eq]
  · norm_num [Table.Filter, Hash16, hyperplanesHash, hashLoop, dot,
      Except.map, Nat.shiftLeft_eq, GoMap.find?, filterBucket]

end GoLsh

namespace GoLsh

theorem gomap_find?_mem {κ ν : Type} [DecidableEq κ] {m : GoMap κ ν}
    {k : κ} {v : ν} (h : m.find? k = some v) : (k, v) ∈ m.entries := by
  induction m with
  | nil => exact Option.noConfusion h
  | cons kv rest ih =>
      obtain ⟨a, b⟩ := kv
      rw [GoMap.find?] at h
      by_cases hk : a = k
      · rw [if_pos hk] at h
        rw [← hk, ← (Option.some.injEq _ _).mp h]
        exact List.mem_cons_self _ _
      · rw [if_neg hk] at h
        exact List.mem_cons_of_mem _ (ih h)

theorem deleteHashes_no_uid (hashes : GoMap ℕ (List ℤ)) (uid : ℕ)
    (tbl : GoMap ℕ Bitmap) (hnd : tbl.keys.Nodup) (h : ℕ) :
    (h ∉ hashes.keys → (deleteHashes hashes uid tbl).find? h = tbl.find? h) ∧
    (h ∈ hashes.keys → ∀ rb',
      (deleteHashes hashes uid tbl).find? h = some rb' → uid ∉ rb') := by
  unfold deleteHashes
  generalize hashes.keys = ks
  induction ks generalizing tbl with
  | nil =>
      exact ⟨fun _ => rfl, fun hmem => absurd hmem (List.not_mem_nil _)⟩
  | cons k ks ih =>
      rw [List.foldl_cons]
      rcases hk : tbl.find? k with _ | rb
      · simp only
        refine ⟨fun hnot => ?_, fun hmem rb' hfind => ?_⟩
        · rw [(ih tbl hnd).1 (fun hin => hnot (List.mem_cons_of_mem _ hin))]
        · rcases List.mem_cons.mp hmem with rfl | hin
          · by_cases hks : h ∈ ks
            · exact (ih tbl hnd).2 hks rb' hfind
            · rw [(ih tbl hnd).1 hks, hk] at hfind
              exact Option.noConfusion hfind
          · exact (ih tbl hnd).2 hin rb' hfind
      · simp only
        by_cases hempty : rb.erase uid = ∅
        · rw [if_pos hempty]
          have hnd1 := GoMap.nodup_keys_erase tbl k hnd
          refine ⟨fun hnot => ?_, fun hmem rb' hfind => ?_⟩
          · rw [(ih _ hnd1).1 (fun hin => hnot (List.mem_cons_of_mem _ hin)),
              GoMap.find?_erase_ne _ _ _
                (fun he : k = h => hnot (by rw [← he]; exact List.mem_cons_self _ _))]
          · rcases List.mem_cons.mp hmem with rfl | hin
            · by_cases hks : h ∈ ks
              · exact (ih _ hnd1).2 hks rb' hfind
              · rw [(ih _ hnd1).1 hks, GoMap.find?_erase_self hnd h] at hfind
                exact Option.noConfusion hfind
            · exact (ih _ hnd1).2 hin rb' hfind
        · rw [if_neg hempty]
          have hnd1 := GoMap.nodup_keys_insert tbl k (rb.erase uid) hnd
          refine ⟨fun hnot => ?_, fun hmem rb' hfind => ?_⟩
          · rw [(ih _ hnd1).1 (fun hin => hnot (List.mem_cons_of_mem _ hin)),
              GoMap.find?_insert_ne _ _ _ _
                (fun he : k = h => hnot (by rw [← he]; exact List.mem_cons_self _ _))]
          · rcases List.mem_cons.mp hmem with rfl | hin
            · by_cases hks : h ∈ ks
              · exact (ih _ hnd1).2 hks rb' hfind
              · rw [(ih _ hnd1).1 hks, GoMap.find?_insert_self] at hfind
                rw [← (Option.some.injEq _ _).mp hfind]
                exact Finset.not_mem_erase _ _
            · exact (ih _ hnd1).2 hin rb' hfind

theorem table_delete_clears (t : Table) (uid : ℕ) (hwf : TableWF t)
    (hcon : (t.doc2hash.find? uid).isSome) :
    (∀ row tbl, (t.Delete uid).2.table.find? row = some tbl →
       ∀ h rb, tbl.find? h = some rb → uid ∉ rb) ∧
    (t.Delete uid).2.doc2hash.find? uid = none := by
  obtain ⟨hashes, hhashes⟩ := Option.isSome_iff_exists.mp hcon
  unfold Table.Delete
  rw [hhashes]
  simp only
  constructor
  · intro row tbl hrow h rb hfind
    rw [GoMap.find?_mapValues] at hrow
    rcases htbl0 : t.table.find? row with _ | tbl0
    · rw [htbl0] at hrow
      exact absurd hrow (by simp)
    · rw [htbl0] at hrow
      simp only [Option.map_some'] at hrow
      have htbl : tbl = deleteHashes hashes uid tbl0 :=
        ((Option.some.injEq _ _).mp hrow).symm
      have hwfe := hwf.1 _ (gomap_find?_mem htbl0)
      have hnd0 : tbl0.keys.Nodup := hwfe.1
      by_cases hks : h ∈ hashes.keys
      · exact (deleteHashes_no_uid hashes uid tbl0 hnd0 h).2 hks rb
          (htbl ▸ hfind)
      · have hunch := (deleteHashes_no_uid hashes uid tbl0 hnd0 h).1 hks
        rw [htbl, hunch] at hfind
        intro hmem
        have hb := hwfe.2 _ (gomap_find?_mem hfind) uid hmem
        rw [hhashes] at hb
        simp only [Option.some_bind] at hb
        exact hks (GoMap.mem_keys_of_find?_isSome hb)
  · exact GoMap.find?_erase_self hwf.2 uid

theorem table_delete_second (t : Table) (uid : ℕ)
    (hgone : t.doc2hash.find? uid = none) :
    t.Delete uid = (some .documentNotStored, t) := by
  unfold Table.Delete
  rw [hgone]

theorem lsh_delete_fold (l : LSH) (uid : ℕ) :
    (l.Delete uid).2.Cfg = l.Cfg ∧
    (l.Delete uid).2.Tables = l.Tables.map (fun t => (t.Delete uid).2) ∧
    (l.Delete uid).2.Docs = ⟨l.Docs.docs.erase uid⟩ ∧
    (l.Delete uid).1 = l.Tables.foldl
      (fun a t => match (t.Delete uid).1 with
                  | some e => some e
                  | none => a) none := by
  have key : ∀ (ts : List Table) (e0 : Option Err) (acc0 : List Table),
      ts.foldl
        (fun acc t =>
          ((match (t.Delete uid).1 with
            | some e => some e
            | none => acc.1),
           acc.2 ++ [(t.Delete uid).2]))
        (e0, acc0) =
      (ts.foldl
        (fun a t => match (t.Delete uid).1 with
                    | some e => some e
                    | none => a) e0,
       acc0 ++ ts.map (fun t => (t.Delete uid).2)) := by
    intro ts
    induction ts with
    | nil => intro e0 acc0; simp
    | cons t ts ih =>
        intro e0 acc0
        rw [List.foldl_cons, List.foldl_cons, ih]
        simp
  unfold LSH.Delete
  rw [key]
  exact ⟨rfl, by simp, rfl, rfl⟩

theorem foldl_err_all (uid : ℕ) (ts : List Table) (e0 : Option Err)
    (hne : ts ≠ [])
    (hall : ∀ t ∈ ts, (t.Delete uid).1 = some .documentNotStored) :
    ts.foldl
      (fun a t => match (t.Delete uid).1 with
                  | some e => some e
                  | none => a) e0 = some .documentNotStored := by
  induction ts generalizing e0 with
  | nil => exact absurd rfl hne
  | cons t ts ih =>
      rw [List.foldl_cons, hall t (List.mem_cons_self _ _)]
      by_cases hts : ts = []
      · subst hts; rfl
      · exact ih _ hts (fun t' ht' => hall t' (List.mem_cons_of_mem _ ht'))

/-- C8: from any well-formed engine state that contains `uid` (every
    table's reverse index and the forward index know it), the first
    `Delete(uid)` removes `uid` from every bucket bitmap of every table
    and drops the forward entry; a second `Delete(uid)` returns
    `DocumentNotStored` and leaves the state exactly unchanged. -/
theorem lsh_delete_idempotent (l : LSH) (uid : ℕ)
    (hwf : ∀ t ∈ l.Tables, TableWF t)
    (hdocs : l.Docs.docs.keys.Nodup)
    (hcon : ∀ t ∈ l.Tables, (t.doc2hash.find? uid).isSome)
    (hne : l.Tables ≠ []) :
    (∀ t1 ∈ (l.Delete uid).2.Tables, ∀ row tbl,
        t1.table.find? row = some tbl → ∀ h rb, tbl.find? h = some rb →
          uid ∉ rb) ∧
    (l.Delete uid).2.Docs.docs.find? uid = none ∧
    ((l.Delete uid).2.Delete uid).1 = some .documentNotStored ∧
    ((l.Delete uid).2.Delete uid).2 = (l.Delete uid).2 := by
  obtain ⟨hC, hT, hD, hE⟩ := lsh_delete_fold l uid
  have hclear : ∀ t1 ∈ (l.Delete uid).2.Tables,
      (∀ row tbl, t1.table.find? row = some tbl →
        ∀ h rb, tbl.find? h = some rb → uid ∉ rb) ∧
      t1.doc2hash.find? uid = none := by
    intro t1 ht1
    rw [hT, List.mem_map] at ht1
    obtain ⟨t0, ht0, rfl⟩ := ht1
    exact table_delete_clears t0 uid (hwf t0 ht0) (hcon t0 ht0)
  refine ⟨fun t1 ht1 => (hclear t1 ht1).1, ?_, ?_, ?_⟩
  · rw [hD]
    exact GoMap.find?_erase_self hdocs uid
  · obtain ⟨hC2, hT2, hD2, hE2⟩ := lsh_delete_fold ((l.Delete uid).2) uid
    rw [hE2]
    refine foldl_err_all uid _ none ?_ ?_
    · rw [hT]
      intro hmap
      exact hne (List.map_eq_nil_iff.mp hmap)
    · intro t1 ht1
      rw [table_delete_second t1 uid (hclear t1 ht1).2]
  · obtain ⟨hC2, hT2, hD2, hE2⟩ := lsh_delete_fold ((l.Delete uid).2) uid
    have hTid : ((l.Delete uid).2.Delete uid).2.Tables =
        (l.Delete uid).2.Tables := by
      rw [hT2]
      have hmapid : (l.Delete uid).2.Tables.map (fun t1 => (t1.Delete uid).2)
          = (l.Delete uid).2.Tables.map id := by
        apply List.map_congr_left
        intro t1 ht1
        simp [table_delete_second t1 uid (hclear t1 ht1).2]
      rw [hmapid, List.map_id]
    have hgone : (l.Delete uid).2.Docs.docs.find? uid = none := by
      rw [hD]
      exact GoMap.find?_erase_self hdocs uid
    have hDid : ((l.Delete uid).2.Delete uid).2.Docs =
        (l.Delete uid).2.Docs := by
      rw [hD2, GoMap.erase_of_find?_eq_none _ _ hgone]
    rcases hstate : ((l.Delete uid).2.Delete uid).2 with ⟨c2, t2, d2⟩
    rcases hstate1 : (l.Delete uid).2 with ⟨c1, t1s, d1s⟩
    rw [hstate, hstate1] at hTid hDid hC2
    simp only at hTid hDid hC2
    rw [hC2, hTid, hDid]

theorem lsh_delete_idempotent_witness :
    (∀ t ∈ lsh8.Tables, TableWF t) ∧
    lsh8.Docs.docs.keys.Nodup ∧
    (∀ t ∈ lsh8.Tables, (t.doc2hash.find? 7).isSome) ∧
    lsh8.Tables ≠ [] ∧
    ((∀ t1 ∈ (lsh8.Delete 7).2.Tables, ∀ row tbl,
        t1.table.find? row = some tbl → ∀ h rb, tbl.find? h = some rb →
          7 ∉ rb) ∧
     (lsh8.Delete 7).2.Docs.docs.find? 7 = none ∧
     ((lsh8.Delete 7).2.Delete 7).1 = some .documentNotStored ∧
     ((lsh8.Delete 7).2.Delete 7).2 = (lsh8.Delete 7).2) :=
  ⟨by unfold TableWF; decide, by decide, by decide, List.cons_ne_nil _ _,
   lsh_delete_idempotent lsh8 7 (by unfold TableWF; decide) (by decide)
     (by decide) (List.cons_ne_nil _ _)⟩

/-! ## The `container/heap` verification (C4, C5) -/

/-- The comparison key is faithful: `Scores.Less` is exactly `<` on keys. -/
theorem lessB_iff_key (a b : Score) :
    Score.lessB a b = true ↔ Score.key a < Score.key b := by
  unfold Score.lessB Score.key
  split_ifs with h1 h2 h3 h4 h5 <;> simp [Prod.Lex.lt_iff]
  · exact Or.inl h1
  · exact ⟨le_of_lt h2, fun he => absurd he (ne_of_gt h2)⟩
  · exact Or.inr ⟨le_antisymm (not_lt.mp h2) (not_lt.mp h1), Or.inl h3⟩
  · exact ⟨not_lt.mp h1,
      fun _ => ⟨le_of_lt h4, fun hi => absurd hi (ne_of_gt h4)⟩⟩
  · exact Or.inr ⟨le_antisymm (not_lt.mp h2) (not_lt.mp h1),
      Or.inr ⟨le_antisymm (not_lt.mp h4) (not_lt.mp h3), h5⟩⟩
  · exact ⟨not_lt.mp h1, fun _ => ⟨not_lt.mp h3, fun _ => not_lt.mp h5⟩⟩



theorem lessB_not_iff (a b : Score) :
    ¬ Score.lessB a b = true ↔ Score.key b ≤ Score.key a := by
  rw [lessB_iff_key, not_lt]

theorem lswap_length (l : List Score) (i j : ℕ) :
    (lswap l i j).length = l.length := by
  simp [lswap]

theorem lswap_getD_fst (l : List Score) {i j : ℕ} (hij : i ≠ j)
    (hi : i < l.length) :
    (lswap l i j).getD i default = l.getD j default := by
  unfold lswap
  rw [List.getD_eq_getElem?_getD, List.getElem?_set_ne (Ne.symm hij),
    List.getElem?_set_self hi]
  rfl

theorem lswap_getD_snd (l : List Score) {i j : ℕ} (hj : j < l.length) :
    (lswap l i j).getD j default = l.getD i default := by
  unfold lswap
  rw [List.getD_eq_getElem?_getD, List.getElem?_set_self (by simpa using hj)]
  rfl

theorem lswap_getD_other (l : List Score) {i j m : ℕ} (hmi : m ≠ i)
    (hmj : m ≠ j) :
    (lswap l i j).getD m default = l.getD m default := by
  unfold lswap
  rw [List.getD_eq_getElem?_getD, List.getElem?_set_ne (Ne.symm hmj),
    List.getElem?_set_ne (Ne.symm hmi), ← List.getD_eq_getElem?_getD]

theorem mem_of_mem_lswap {l : List Score} {i j : ℕ} {x : Score}
    (hi : i < l.length) (hj : j < l.length) (hx : x ∈ lswap l i j) :
    x ∈ l := by
  unfold lswap at hx
  rcases List.mem_or_eq_of_mem_set hx with hx | rfl
  · rcases List.mem_or_eq_of_mem_set hx with hx | rfl
    · exact hx
    · rw [List.getD_eq_getElem _ _ hj]; exact List.getElem_mem _
  · rw [List.getD_eq_getElem _ _ hi]; exact List.getElem_mem _






theorem heapUp_length_aux (k : ℕ) : ∀ (j : ℕ) (l : List Score), j ≤ k →
    (heapUp l j).length = l.length := by
  induction k with
  | zero =>
      intro j l hj
      have hj0 : j = 0 := by omega
      subst hj0
      rw [heapUp, dif_pos (Or.inl rfl)]
  | succ k ih =>
      intro j l hj
      rw [heapUp]
      split
      · rfl
      · rename_i h
        push_neg at h
        rw [ih ((j - 1) / 2) _ (by omega), lswap_length]

theorem heapUp_length (l : List Score) (j : ℕ) :
    (heapUp l j).length = l.length :=
  heapUp_length_aux j j l le_rfl

theorem heapUp_subset_aux (k : ℕ) : ∀ (j : ℕ) (l : List Score), j ≤ k →
    j < l.length → ∀ x ∈ heapUp l j, x ∈ l := by
  induction k with
  | zero =>
      intro j l hj hjl x hx
      have hj0 : j = 0 := by omega
      subst hj0
      rw [heapUp, dif_pos (Or.inl rfl)] at hx
      exact hx
  | succ k ih =>
      intro j l hj hjl x hx
      rw [heapUp] at hx
      split at hx
      · exact hx
      · rename_i h
        push_neg at h
        have hp : (j - 1) / 2 < j := by omega
        have hx' := ih ((j - 1) / 2) (lswap l ((j - 1) / 2) j)
          (by omega) (by rw [lswap_length]; omega) x hx
        exact mem_of_mem_lswap (by omega) hjl hx'

theorem heapUp_subset {l : List Score} {j : ℕ} (hjl : j < l.length)
    {x : Score} (hx : x ∈ heapUp l j) : x ∈ l :=
  heapUp_subset_aux j j l le_rfl hjl x hx



theorem heapDown_length_aux (k : ℕ) : ∀ (i n : ℕ) (l : List Score),
    n - i ≤ k → (heapDown l i n).length = l.length := by
  induction k with
  | zero =>
      intro i n l hk
      rw [heapDown, dif_pos (Or.inl (by omega))]
  | succ k ih =>
      intro i n l hk
      rw [heapDown]
      split
      · rfl
      · rename_i h
        rw [not_or] at h
        have hc : i < downChild l i n := by unfold downChild; split <;> omega
        rw [ih _ n _ (by omega), lswap_length]

theorem heapDown_length (l : List Score) (i n : ℕ) :
    (heapDown l i n).length = l.length :=
  heapDown_length_aux (n - i) i n l le_rfl

theorem heapDown_subset_aux (k : ℕ) : ∀ (i n : ℕ) (l : List Score),
    n - i ≤ k → n ≤ l.length → ∀ x ∈ heapDown l i n, x ∈ l := by
  induction k with
  | zero =>
      intro i n l hk hn x hx
      rw [heapDown, dif_pos (Or.inl (by omega))] at hx
      exact hx
  | succ k ih =>
      intro i n l hk hn x hx
      rw [heapDown] at hx
      split at hx
      · exact hx
      · rename_i h
        rw [not_or] at h
        have hc1 : i < downChild l i n := by unfold downChild; split <;> omega
        have hc2 : downChild l i n < n := by
          unfold downChild
          split <;> omega
        have hx' := ih (downChild l i n) n _ (by omega)
          (by rw [lswap_length]; omega) x hx
        exact mem_of_mem_lswap (by omega) (by omega) hx'

theorem heapDown_subset {l : List Score} {i n : ℕ} (hn : n ≤ l.length)
    {x : Score} (hx : x ∈ heapDown l i n) : x ∈ l :=
  heapDown_subset_aux (n - i) i n l le_rfl hn x hx

theorem heapDown_getD_ge_aux (k : ℕ) : ∀ (i n m : ℕ) (l : List Score),
    n - i ≤ k → n ≤ m →
    (heapDown l i n).getD m default = l.getD m default := by
  induction k with
  | zero =>
      intro i n m l hk hm
      rw [heapDown, dif_pos (Or.inl (by omega))]
  | succ k ih =>
      intro i n m l hk hm
      rw [heapDown]
      split
      · rfl
      · rename_i h
        rw [not_or] at h
        have hc1 : i < downChild l i n := by unfold downChild; split <;> omega
        have hc2 : downChild l i n < n := by
          unfold downChild
          split <;> omega
        rw [ih _ n m _ (by omega) hm,
          lswap_getD_other _ (by omega) (by omega)]

theorem heapDown_getD_ge (l : List Score) (i n m : ℕ) (hm : n ≤ m) :
    (heapDown l i n).getD m default = l.getD m default :=
  heapDown_getD_ge_aux (n - i) i n m l le_rfl hm



theorem heapEdge_parent {i j : ℕ} (h : heapEdge i j) : i = (j - 1) / 2 := by
  unfold heapEdge at h
  omega

theorem heapEdge_lt {i j : ℕ} (h : heapEdge i j) : i < j := by
  unfold heapEdge at h
  omega

theorem heapEdge_of_pos {j : ℕ} (h : 0 < j) : heapEdge ((j - 1) / 2) j := by
  unfold heapEdge
  omega

theorem heapUp_isHeap_aux (k : ℕ) : ∀ (j : ℕ) (l : List Score), j ≤ k →
    j < l.length →
    (∀ i m, heapEdge i m → m < l.length → m ≠ j →
      Score.key (l.getD i default) ≤ Score.key (l.getD m default)) →
    (∀ m, heapEdge j m → m < l.length →
      Score.key (l.getD ((j - 1) / 2) default) ≤
        Score.key (l.getD m default)) →
    IsHeap (heapUp l j) := by
  induction k with
  | zero =>
      intro j l hjk hj h1 h2
      have hj0 : j = 0 := by omega
      subst hj0
      rw [heapUp, dif_pos (Or.inl rfl)]
      intro i m hedge hm
      exact h1 i m hedge hm (by have := heapEdge_lt hedge; omega)
  | succ k ih =>
      intro j l hjk hj h1 h2
      rw [heapUp]
      split
      · rename_i hstop
        intro i m hedge hm
        by_cases hmj : m = j
        · subst hmj
          have hi : i = (m - 1) / 2 := heapEdge_parent hedge
          subst hi
          rcases hstop with hjj | hnl
          · have := heapEdge_lt hedge
            omega
          · exact (lessB_not_iff _ _).mp hnl
        · exact h1 i m hedge hm hmj
      · rename_i hgo
        rw [not_or, not_not] at hgo
        obtain ⟨hne, hless⟩ := hgo
        have hlt := (lessB_iff_key _ _).mp hless
        have hpj : (j - 1) / 2 < j := by omega
        set p := (j - 1) / 2 with hp
        have hplen : p < l.length := by omega
        apply ih p (lswap l p j) (by omega) (by rw [lswap_length]; omega)
        · -- edges avoiding p still respect the order after the swap
          intro i m hedge hm hmp
          rw [lswap_length] at hm
          by_cases hmj : m = j
          · subst hmj
            have hi : i = p := by
              have := heapEdge_parent hedge
              omega
            subst hi
            rw [lswap_getD_fst _ (by omega) hplen, lswap_getD_snd _ hj]
            exact le_of_lt hlt
          · rw [lswap_getD_other _ (show m ≠ p from hmp) (show m ≠ j from hmj)]
            by_cases hip : i = p
            · subst hip
              rw [lswap_getD_fst _ (by omega) hplen]
              exact le_trans (le_of_lt hlt) (h1 p m hedge hm hmj)
            · by_cases hij : i = j
              · subst hij
                rw [lswap_getD_snd _ hj]
                exact h2 m hedge hm
              · rw [lswap_getD_other _ (show i ≠ p from hip)
                  (show i ≠ j from hij)]
                exact h1 i m hedge hm hmj
        · -- the grandparent bound at the new position
          intro m hedge hm
          rw [lswap_length] at hm
          have hmp : m ≠ p := by have := heapEdge_lt hedge; omega
          rcases Nat.eq_zero_or_pos p with hp0 | hppos
          · -- p is the root: (p-1)/2 = p and the swap puts l[j] there
            rw [show (p - 1) / 2 = p by omega,
              lswap_getD_fst _ (by omega) hplen]
            by_cases hmj : m = j
            · subst hmj
              rw [lswap_getD_snd _ hj]
              exact le_of_lt hlt
            · rw [lswap_getD_other _ (show m ≠ p from hmp)
                (show m ≠ j from hmj)]
              exact le_trans (le_of_lt hlt) (h1 p m hedge hm hmj)
          · -- p has a real parent p', untouched by the swap
            have hpp : (p - 1) / 2 < p := by omega
            rw [lswap_getD_other _ (show (p - 1) / 2 ≠ p by omega)
              (show (p - 1) / 2 ≠ j by omega)]
            have hedge_pp : heapEdge ((p - 1) / 2) p := heapEdge_of_pos hppos
            have hbase := h1 ((p - 1) / 2) p hedge_pp hplen (by omega)
            by_cases hmj : m = j
            · subst hmj
              rw [lswap_getD_snd _ hj]
              exact hbase
            · rw [lswap_getD_other _ (show m ≠ p from hmp)
                (show m ≠ j from hmj)]
              exact le_trans hbase (h1 p m hedge hm hmj)

theorem heapUp_isHeap (l : List Score) (j : ℕ) (hj : j < l.length)
    (h1 : ∀ i m, heapEdge i m → m < l.length → m ≠ j →
      Score.key (l.getD i default) ≤ Score.key (l.getD m default))
    (h2 : ∀ m, heapEdge j m → m < l.length →
      Score.key (l.getD ((j - 1) / 2) default) ≤
        Score.key (l.getD m default)) :
    IsHeap (heapUp l j) :=
  heapUp_isHeap_aux j j l le_rfl hj h1 h2



theorem downChild_min (l : List Score) (i n : ℕ) (hn2 : ¬ n ≤ 2 * i + 1) :
    heapEdge i (downChild l i n) ∧ downChild l i n < n ∧
    ∀ b, heapEdge i b → b < n →
      Score.key (l.getD (downChild l i n) default) ≤
        Score.key (l.getD b default) := by
  have hd : downChild l i n =
      if 2 * i + 2 < n ∧
        Score.lessB (l.getD (2 * i + 2) default) (l.getD (2 * i + 1) default)
      then 2 * i + 2 else 2 * i + 1 := rfl
  by_cases hcond : 2 * i + 2 < n ∧
      Score.lessB (l.getD (2 * i + 2) default)
        (l.getD (2 * i + 1) default) = true
  · rw [hd, if_pos hcond]
    refine ⟨Or.inr rfl, hcond.1, ?_⟩
    intro b hb hbn
    rcases hb with hb | hb <;> subst hb
    · exact le_of_lt ((lessB_iff_key _ _).mp hcond.2)
    · exact le_rfl
  · rw [hd, if_neg hcond]
    refine ⟨Or.inl rfl, by omega, ?_⟩
    intro b hb hbn
    rcases hb with hb | hb <;> subst hb
    · exact le_rfl
    · exact (lessB_not_iff _ _).mp (not_and.mp hcond hbn)

theorem heapDown_isHeapN_aux (k : ℕ) : ∀ (i n : ℕ) (l : List Score),
    n - i ≤ k → n ≤ l.length →
    (∀ a b, heapEdge a b → b < n → a ≠ i →
      Score.key (l.getD a default) ≤ Score.key (l.getD b default)) →
    (0 < i → ∀ b, heapEdge i b → b < n →
      Score.key (l.getD ((i - 1) / 2) default) ≤
        Score.key (l.getD b default)) →
    IsHeapN (heapDown l i n) n := by
  induction k with
  | zero =>
      intro i n l hk hn h1 h2
      rw [heapDown, dif_pos (Or.inl (by omega))]
      intro a b hedge hbn
      by_cases hai : a = i
      · subst hai
        have := heapEdge_lt hedge
        omega
      · exact h1 a b hedge hbn hai
  | succ k ih =>
      intro i n l hk hn h1 h2
      rw [heapDown]
      split
      · rename_i hstop
        intro a b hedge hbn
        by_cases hai : a = i
        · subst hai
          by_cases hn2 : n ≤ 2 * a + 1
          · have := heapEdge_lt hedge
            unfold heapEdge at hedge
            omega
          · obtain ⟨hedge_c, hcn, hmin⟩ := downChild_min l a n hn2
            have hnl : ¬ Score.lessB (l.getD (downChild l a n) default)
                (l.getD a default) = true := by
              rcases hstop with hx | hx
              · exact absurd hx hn2
              · exact hx
            exact le_trans ((lessB_not_iff _ _).mp hnl) (hmin b hedge hbn)
        · exact h1 a b hedge hbn hai
      · rename_i hgo
        rw [not_or, not_not] at hgo
        obtain ⟨hn2, hless⟩ := hgo
        have hlt := (lessB_iff_key _ _).mp hless
        obtain ⟨hedge_ic, hcn, hmin⟩ := downChild_min l i n hn2
        set c := downChild l i n with hc
        have hic : i < c := heapEdge_lt hedge_ic
        have hclen : c < l.length := lt_of_lt_of_le hcn hn
        have hilen : i < l.length := by omega
        apply ih c n (lswap l i c) (by omega) (by rw [lswap_length]; exact hn)
        · intro a b hedge hbn hac
          by_cases hbc : b = c
          · subst hbc
            have hai : a = i := by
              have hp1 := heapEdge_parent hedge
              have hp2 := heapEdge_parent hedge_ic
              omega
            subst hai
            rw [lswap_getD_fst _ (show a ≠ c by omega) hilen,
              lswap_getD_snd _ hclen]
            exact le_of_lt hlt
          · by_cases hbi : b = i
            · subst hbi
              have hbpos : 0 < b := by
                have := heapEdge_lt hedge
                omega
              have hap : a = (b - 1) / 2 := heapEdge_parent hedge
              rw [lswap_getD_other _ (show a ≠ b by omega)
                  (show a ≠ c by omega),
                lswap_getD_fst _ (show b ≠ c by omega) hilen]
              have := h2 hbpos c hedge_ic hcn
              rw [← hap] at this
              exact this
            · rw [lswap_getD_other _ (show b ≠ i from hbi)
                (show b ≠ c from hbc)]
              by_cases hai : a = i
              · subst hai
                rw [lswap_getD_fst _ (show a ≠ c by omega) hilen]
                exact hmin b hedge hbn
              · rw [lswap_getD_other _ (show a ≠ i from hai)
                  (show a ≠ c from hac)]
                exact h1 a b hedge hbn hai
        · intro hcpos b hedge hbn
          have hbc : c < b := heapEdge_lt hedge
          have hparent : (c - 1) / 2 = i := (heapEdge_parent hedge_ic).symm
          rw [hparent, lswap_getD_fst _ (show i ≠ c by omega) hilen,
            lswap_getD_other _ (show b ≠ i by omega) (show b ≠ c by omega)]
          exact h1 c b hedge hbn (show c ≠ i by omega)

theorem heapDown_isHeapN (l : List Score) (i n : ℕ) (hn : n ≤ l.length)
    (h1 : ∀ a b, heapEdge a b → b < n → a ≠ i →
      Score.key (l.getD a default) ≤ Score.key (l.getD b default))
    (h2 : 0 < i → ∀ b, heapEdge i b → b < n →
      Score.key (l.getD ((i - 1) / 2) default) ≤
        Score.key (l.getD b default)) :
    IsHeapN (heapDown l i n) n :=
  heapDown_isHeapN_aux (n - i) i n l le_rfl hn h1 h2



theorem heapPush_isHeap (l : List Score) (x : Score) (h : IsHeap l) :
    IsHeap (heapPush l x) := by
  unfold heapPush
  apply heapUp_isHeap _ _ (by simp)
  · intro i m hedge hm hmj
    rw [List.length_append, List.length_singleton] at hm
    have hm' : m < l.length := by omega
    have hi' : i < l.length := lt_trans (heapEdge_lt hedge) hm'
    rw [List.getD_append _ _ _ _ hm', List.getD_append _ _ _ _ hi']
    exact h i m hedge hm'
  · intro m hedge hm
    rw [List.length_append, List.length_singleton] at hm
    unfold heapEdge at hedge
    omega

theorem heapPush_length (l : List Score) (x : Score) :
    (heapPush l x).length = l.length + 1 := by
  unfold heapPush
  rw [heapUp_length, List.length_append, List.length_singleton]

theorem mem_of_mem_heapPush {l : List Score} {s x : Score}
    (h : x ∈ heapPush l s) : x ∈ l ∨ x = s := by
  unfold heapPush at h
  have := heapUp_subset (l := l ++ [s]) (by simp) h
  simpa using this

theorem getD_dropLast (l : List Score) (m : ℕ) (hm : m < l.length - 1) :
    l.dropLast.getD m default = l.getD m default := by
  rw [List.getD_eq_getElem _ _ (by rw [List.length_dropLast]; exact hm),
    List.getElem_dropLast, List.getD_eq_getElem _ _ (by omega)]

theorem heapPop_fst (l : List Score) (hne : l ≠ []) :
    (heapPop l).1 = l.getD 0 default := by
  have hlen : 0 < l.length := List.length_pos.mpr hne
  show (heapDown (lswap l 0 (l.length - 1)) 0 (l.length - 1)).getD
      (l.length - 1) default = l.getD 0 default
  rw [heapDown_getD_ge _ _ _ _ le_rfl, lswap_getD_snd _ (by omega)]

theorem heapPop_snd_length (l : List Score) :
    (heapPop l).2.length = l.length - 1 := by
  show (heapDown (lswap l 0 (l.length - 1)) 0
      (l.length - 1)).dropLast.length = l.length - 1
  rw [List.length_dropLast, heapDown_length, lswap_length]

theorem heapPop_snd_subset {l : List Score} {x : Score}
    (h : x ∈ (heapPop l).2) : x ∈ l := by
  have h' : x ∈
      (heapDown (lswap l 0 (l.length - 1)) 0 (l.length - 1)).dropLast := h
  have h'' := (List.dropLast_sublist _).subset h'
  rcases Nat.eq_zero_or_pos l.length with h0 | hpos
  · have hl : l = [] := List.length_eq_zero.mp h0
    subst hl
    rw [heapDown, dif_pos (Or.inl (by omega))] at h''
    simp [lswap] at h''
  · exact mem_of_mem_lswap (by omega) (by omega)
      (heapDown_subset (by rw [lswap_length]; omega) h'')

theorem heapPop_snd_isHeap (l : List Score) (h : IsHeap l) :
    IsHeap (heapPop l).2 := by
  have hN : IsHeapN (heapDown (lswap l 0 (l.length - 1)) 0 (l.length - 1))
      (l.length - 1) := by
    apply heapDown_isHeapN _ _ _ (by rw [lswap_length]; omega)
    · intro a b hedge hbn ha0
      have hb0 : 0 < b := by have := heapEdge_lt hedge; omega
      have hab := heapEdge_lt hedge
      rw [lswap_getD_other _ (show a ≠ 0 from ha0) (show a ≠ l.length - 1 by omega),
        lswap_getD_other _ (show b ≠ 0 by omega) (show b ≠ l.length - 1 by omega)]
      exact h a b hedge (by omega)
    · intro h0
      exact absurd h0 (lt_irrefl 0)
  show IsHeap
    (heapDown (lswap l 0 (l.length - 1)) 0 (l.length - 1)).dropLast
  intro i j hedge hj
  rw [List.length_dropLast, heapDown_length, lswap_length] at hj
  have hij := heapEdge_lt hedge
  rw [getD_dropLast _ _ (by rw [heapDown_length, lswap_length]; omega),
    getD_dropLast _ _ (by rw [heapDown_length, lswap_length]; omega)]
  exact hN i j hedge hj

theorem isHeap_root_le (l : List Score) (h : IsHeap l) :
    ∀ j, j < l.length →
      Score.key (l.getD 0 default) ≤ Score.key (l.getD j default) := by
  intro j
  induction j using Nat.strong_induction_on with
  | _ j ih =>
    intro hj
    rcases Nat.eq_zero_or_pos j with rfl | hpos
    · exact le_rfl
    · have hp : (j - 1) / 2 < j := by omega
      exact le_trans (ih _ hp (by omega)) (h _ _ (heapEdge_of_pos hpos) hj)

theorem drainHeap_length : ∀ (k : ℕ) (l : List Score),
    (drainHeap l k).length = k := by
  intro k
  induction k with
  | zero => intro l; rfl
  | succ k ih => intro l; rw [drainHeap]; simp [ih]

theorem heapPop_fst_mem (l : List Score) (hne : l ≠ []) :
    (heapPop l).1 ∈ l := by
  rw [heapPop_fst l hne]
  have hlen : 0 < l.length := List.length_pos.mpr hne
  rw [List.getD_eq_getElem _ _ hlen]
  exact List.getElem_mem _

theorem drainHeap_subset : ∀ (k : ℕ) (l : List Score), k = l.length →
    ∀ x ∈ drainHeap l k, x ∈ l := by
  intro k
  induction k with
  | zero => intro l _ x hx; simp [drainHeap] at hx
  | succ k ih =>
      intro l hk x hx
      have hne : l ≠ [] := by
        intro h0
        subst h0
        simp at hk
      rw [drainHeap] at hx
      rcases List.mem_cons.mp hx with rfl | hx'
      · exact heapPop_fst_mem l hne
      · exact heapPop_snd_subset
          (ih (heapPop l).2 (by rw [heapPop_snd_length]; omega) x hx')

theorem drainHeap_sorted : ∀ (k : ℕ) (l : List Score), k = l.length →
    IsHeap l →
    List.Sorted (fun a b : Score => Score.key a ≤ Score.key b)
      (drainHeap l k) := by
  intro k
  induction k with
  | zero => intro l _ _; exact List.sorted_nil
  | succ k ih =>
      intro l hk hheap
      have hne : l ≠ [] := by
        intro h0
        subst h0
        simp at hk
      rw [drainHeap, List.sorted_cons]
      constructor
      · intro b hb
        have hb1 : b ∈ (heapPop l).2 :=
          drainHeap_subset k _ (by rw [heapPop_snd_length]; omega) b hb
        have hb2 : b ∈ l := heapPop_snd_subset hb1
        obtain ⟨m, hm, rfl⟩ := List.mem_iff_getElem.mp hb2
        rw [heapPop_fst l hne, ← List.getD_eq_getElem l default hm]
        exact isHeap_root_le l hheap m hm
      · exact ih (heapPop l).2 (by rw [heapPop_snd_length]; omega)
          (heapPop_snd_isHeap l hheap)



theorem update_isHeap (r : Results) (s : Score) (h : IsHeap r.scores) :
    IsHeap (r.Update s).scores := by
  unfold Results.Update
  dsimp only
  split_ifs with h1 h2 h3
  · exact heapPush_isHeap _ _ (heapPop_snd_isHeap _ h)
  · exact h
  · exact heapPush_isHeap _ _ h
  · exact h

theorem foldl_update_isHeap (us : List Score) (r : Results)
    (h : IsHeap r.scores) : IsHeap (us.foldl Results.Update r).scores := by
  induction us generalizing r with
  | nil => exact h
  | cons u us ih => exact ih _ (update_isHeap _ _ h)

theorem sorted_fetch_of_isHeap (r : Results) (h : IsHeap r.scores) :
    List.Sorted (fun a b : Score => Score.key b ≤ Score.key a) r.Fetch := by
  unfold Results.Fetch
  exact List.pairwise_reverse.mpr (drainHeap_sorted _ _ rfl h)



/-- C4: after any sequence of `Update` calls from a fresh collector,
    `Fetch` returns the scores sorted descending in the full comparison
    key, i.e. by `|score|` descending with ties broken by `time_index`
    descending and then `uid` descending — not ascending as the spec
    states (see the counterexample below). -/
theorem results_fetch_sorted_desc (topN : ℕ) (th : ℚ) (sf : ℤ)
    (us : List Score) :
    List.Sorted (fun a b : Score => Score.key b ≤ Score.key a)
      ((us.foldl Results.Update (Results.New topN th sf)).Fetch) := by
  apply sorted_fetch_of_isHeap
  apply foldl_update_isHeap
  intro i j hedge hj
  simp [Results.New] at hj

/-- C4 counterexample: equal absolute scores come back with time indices
    descending, not ascending. -/
theorem results_fetch_tie_counterexample :
    (((Results.New 2 0 0).Update ⟨1, 0, 1⟩).Update ⟨2, 5, 1⟩).Fetch =
      [⟨2, 5, 1⟩, ⟨1, 0, 1⟩] ∧
    |(Score.mk 2 5 1).score| = |(Score.mk 1 0 1).score| ∧
    (Score.mk 1 0 1).index < (Score.mk 2 5 1).index := by
  refine ⟨?_, rfl, by decide⟩
  have hU1 : heapUp [(⟨1, 0, 1⟩ : Score)] 0 = [⟨1, 0, 1⟩] := by
    rw [heapUp, dif_pos (Or.inl rfl)]
  have hU2 : heapUp [(⟨1, 0, 1⟩ : Score), ⟨2, 5, 1⟩] 1 =
      [⟨1, 0, 1⟩, ⟨2, 5, 1⟩] := by
    rw [heapUp, dif_pos (Or.inr (by decide))]
  have h1 : (Results.New 2 0 0).Update ⟨1, 0, 1⟩ =
      ⟨2, 0, 0, [⟨1, 0, 1⟩], 1⟩ := by
    unfold Results.Update Results.New heapPush
    norm_num [Results.passed, hU1]
  have h2 : (Results.mk 2 0 0 [⟨1, 0, 1⟩] 1).Update ⟨2, 5, 1⟩ =
      ⟨2, 0, 0, [⟨1, 0, 1⟩, ⟨2, 5, 1⟩], 2⟩ := by
    unfold Results.Update heapPush
    norm_num [Results.passed, hU2]
  rw [h1, h2]
  have hD1 : heapDown [(⟨2, 5, 1⟩ : Score), ⟨1, 0, 1⟩] 0 1 =
      [⟨2, 5, 1⟩, ⟨1, 0, 1⟩] := by
    rw [heapDown, dif_pos (Or.inl (by norm_num))]
  have hD2 : heapDown [(⟨2, 5, 1⟩ : Score)] 0 0 = [⟨2, 5, 1⟩] := by
    rw [heapDown, dif_pos (Or.inl (by norm_num))]
  have hP1 : heapPop [(⟨1, 0, 1⟩ : Score), ⟨2, 5, 1⟩] =
      (⟨1, 0, 1⟩, [⟨2, 5, 1⟩]) := by
    show (let n := 1;
      let l' := heapDown (lswap [(⟨1, 0, 1⟩ : Score), ⟨2, 5, 1⟩] 0 n) 0 n;
      (l'.getD n default, l'.dropLast)) = (⟨1, 0, 1⟩, [⟨2, 5, 1⟩])
    simp only [lswap]
    norm_num [hD1]
  have hP2 : heapPop [(⟨2, 5, 1⟩ : Score)] = (⟨2, 5, 1⟩, []) := by
    show (let n := 0;
      let l' := heapDown (lswap [(⟨2, 5, 1⟩ : Score)] 0 n) 0 n;
      (l'.getD n default, l'.dropLast)) = (⟨2, 5, 1⟩, [])
    simp only [lswap]
    norm_num [hD2]
  unfold Results.Fetch
  norm_num [drainHeap, hP1, hP2]




theorem update_fields (r : Results) (s : Score) :
    (r.Update s).TopN = r.TopN ∧ (r.Update s).Threshold = r.Threshold ∧
      (r.Update s).SignFilter = r.SignFilter := by
  unfold Results.Update
  dsimp only
  split_ifs <;> exact ⟨rfl, rfl, rfl⟩

theorem update_resInv (r : Results) (s : Score) (htop : 1 ≤ r.TopN)
    (h : ResInv r) : ResInv (r.Update s) := by
  obtain ⟨hlen, hmem⟩ := h
  unfold Results.Update
  dsimp only
  split_ifs with h1 h2 h3
  · refine ⟨?_, ?_⟩
    · rw [heapPush_length, heapPop_snd_length]
      dsimp only
      omega
    · intro sc hsc
      rcases mem_of_mem_heapPush hsc with hm | rfl
      · exact hmem sc (heapPop_snd_subset hm)
      · exact h1
  · exact ⟨hlen, hmem⟩
  · refine ⟨?_, ?_⟩
    · rw [heapPush_length]
      dsimp only
      omega
    · intro sc hsc
      rcases mem_of_mem_heapPush hsc with hm | rfl
      · exact hmem sc hm
      · exact h1
  · exact ⟨hlen, hmem⟩

theorem fetch_length (r : Results) : r.Fetch.length = r.scores.length := by
  unfold Results.Fetch
  rw [List.length_reverse, drainHeap_length]

theorem fetch_subset {r : Results} {x : Score} (h : x ∈ r.Fetch) :
    x ∈ r.scores := by
  unfold Results.Fetch at h
  rw [List.mem_reverse] at h
  exact drainHeap_subset _ _ rfl x h

theorem foldl_match_none {α : Type} (f : Results → α → Option Results) :
    ∀ xs : List α, xs.foldl
      (fun acc x => match acc with
                    | none => none
                    | some r => f r x) none = none := by
  intro xs
  induction xs with
  | nil => rfl
  | cons x xs ih => rw [List.foldl_cons]; exact ih

theorem optionFold_preserve {α : Type} (P : Results → Prop)
    (f : Results → α → Option Results)
    (hf : ∀ r x r', f r x = some r' → P r → P r') :
    ∀ (xs : List α) (res res' : Results),
      xs.foldl (fun acc x => match acc with
                             | none => none
                             | some r => f r x) (some res) = some res' →
      P res → P res' := by
  intro xs
  induction xs with
  | nil =>
      intro res res' h hP
      rw [List.foldl_nil] at h
      cases h
      exact hP
  | cons x xs ih =>
      intro res res' h hP
      rw [List.foldl_cons] at h
      dsimp only at h
      rcases hfx : f res x with _ | r2
      · rw [hfx] at h
        rw [foldl_match_none] at h
        exact absurd h (by simp)
      · rw [hfx] at h
        exact ih r2 res' h (hf res x r2 hfx hP)

theorem validate_numToReturn {s s' : SearchOpts}
    (h : s.Validate = .ok s') : 1 ≤ s.NumToReturn := by
  unfold SearchOpts.Validate at h
  split_ifs at h with h1 h2 h3 <;> omega

theorem scoreDocs_inv (corr : List ℚ → List ℚ → ℚ) (l : LSH)
    (qvec : List ℚ) (docIds : GoMap ℕ (Finset ℤ)) (res res' : Results)
    (htop : 1 ≤ res.TopN)
    (h : scoreDocs corr l qvec docIds res = some res')
    (hinv : ResInv res) :
    ResInv res' ∧ res'.TopN = res.TopN ∧ res'.Threshold = res.Threshold ∧
      res'.SignFilter = res.SignFilter := by
  unfold scoreDocs at h
  refine optionFold_preserve
    (fun r => ResInv r ∧ r.TopN = res.TopN ∧ r.Threshold = res.Threshold ∧
      r.SignFilter = res.SignFilter)
    (fun r entry => (entry.2.sort (· ≤ ·)).foldl
      (fun acc index => match acc with
        | none => none
        | some res2 => match l.Docs.GetVector l.Cfg entry.1 index with
          | .panic => none
          | .notFound => some res2
          | .ok v => some (res2.Update
              ⟨entry.1, index, corr qvec (l.Cfg.TFunc v)⟩))
      (some r))
    ?_ docIds res res' h ⟨hinv, rfl, rfl, rfl⟩
  intro r x r' hfx hP
  refine optionFold_preserve
    (fun r => ResInv r ∧ r.TopN = res.TopN ∧ r.Threshold = res.Threshold ∧
      r.SignFilter = res.SignFilter)
    (fun res2 index => match l.Docs.GetVector l.Cfg x.1 index with
      | .panic => none
      | .notFound => some res2
      | .ok v => some (res2.Update ⟨x.1, index, corr qvec (l.Cfg.TFunc v)⟩))
    ?_ (x.2.sort (· ≤ ·)) r r' hfx hP
  intro r2 index r3 hstep hP2
  dsimp only at hstep
  obtain ⟨hinv2, hT, hTh, hS⟩ := hP2
  rcases hgv : l.Docs.GetVector l.Cfg x.1 index with _ | _ | v
  · rw [hgv] at hstep
    exact absurd hstep (by simp)
  · rw [hgv] at hstep
    cases hstep
    exact ⟨hinv2, hT, hTh, hS⟩
  · rw [hgv] at hstep
    cases hstep
    obtain ⟨huT, huTh, huS⟩ :=
      update_fields r2 ⟨x.1, index, corr qvec (l.Cfg.TFunc v)⟩
    refine ⟨update_resInv _ _ (by omega) hinv2, ?_, ?_, ?_⟩
    · rw [huT, hT]
    · rw [huTh, hTh]
    · rw [huS, hS]

/-- C5: whenever `Search` returns a result list `R`, it holds at most
    `NumToReturn` scores, each with `|score|` at least `Threshold` and
    matching the sign filter (`POS`: positive, `NEG`: negative,
    `ANY`: either). -/
theorem lsh_search_results_bounded (corr : List ℚ → List ℚ → ℚ) (l : LSH)
    (d : Document) (s : SearchOpts) (R : List Score) (n : ℕ)
    (h : (LSH.Search corr l d s).1 = .ok (some (R, n))) :
    R.length ≤ s.NumToReturn ∧
    ∀ sc ∈ R, s.Threshold ≤ |sc.score| ∧
      (s.SignFilter = 1 → 0 < sc.score) ∧
      (s.SignFilter = -1 → sc.score < 0) := by
  unfold LSH.Search at h
  by_cases hlen : d.vector.length ≠ l.Cfg.VectorLength
  · rw [if_pos hlen] at h
    simp at h
  · rw [if_neg hlen] at h
    dsimp only at h
    rcases hv : s.Validate with e | s1
    · rw [hv] at h
      simp at h
    · rw [hv] at h
      dsimp only at h
      rcases hf : l.filterDocs { d with vector := l.Cfg.TFunc d.vector } s
        with e | docIds
      · rw [hf] at h
        simp at h
      · rw [hf] at h
        dsimp only at h
        rcases hs : scoreDocs corr l
            ({ d with vector := l.Cfg.TFunc d.vector } : Document).vector
            docIds (Results.New s.NumToReturn s.Threshold s.SignFilter)
          with _ | res
        · rw [hs] at h
          simp at h
        · rw [hs] at h
          simp only [Except.ok.injEq, Option.some.injEq, Prod.mk.injEq] at h
          obtain ⟨hR, hn⟩ := h
          have hN : 1 ≤ s.NumToReturn := validate_numToReturn hv
          have h0 : ResInv
              (Results.New s.NumToReturn s.Threshold s.SignFilter) := by
            constructor
            · simp [Results.New]
            · intro sc hsc
              simp [Results.New] at hsc
          obtain ⟨⟨hlen2, hpass⟩, hTop, hTh, hSf⟩ :=
            scoreDocs_inv corr l _ docIds _ res hN hs h0
          have hTop' : res.TopN = s.NumToReturn := hTop
          have hTh' : res.Threshold = s.Threshold := hTh
          have hSf' : res.SignFilter = s.SignFilter := hSf
          subst hR
          refine ⟨?_, ?_⟩
          · rw [fetch_length]
            omega
          · intro sc hsc
            have hmem := fetch_subset hsc
            have hp := hpass sc hmem
            unfold Results.passed at hp
            rw [decide_eq_true_eq] at hp
            obtain ⟨habs, hsign⟩ := hp
            rw [hTh'] at habs
            rw [hSf'] at hsign
            refine ⟨habs, ?_, ?_⟩
            · intro h1
              rcases hsign with h0' | ⟨hpos, _⟩ | ⟨_, hneg⟩
              · omega
              · exact hpos
              · omega
            · intro h1
              rcases hsign with h0' | ⟨_, hpos⟩ | ⟨hneg, _⟩
              · omega
              · omega
              · exact hneg

theorem lsh_search_results_bounded_witness :
    (LSH.Search corr5 lsh5 d5 opts5).1 = .ok (some ([], 0)) ∧
    (([] : List Score).length ≤ opts5.NumToReturn ∧
     ∀ sc ∈ ([] : List Score), opts5.Threshold ≤ |sc.score| ∧
       (opts5.SignFilter = 1 → 0 < sc.score) ∧
       (opts5.SignFilter = -1 → sc.score < 0)) :=
  ⟨by decide,
   lsh_search_results_bounded corr5 lsh5 d5 opts5 [] 0 (by decide)⟩

end GoLsh
